import Mathlib

/-!
A shallow embedding of `date.c`.

The file embeds the date parser of `date.c` (`my_mktime`, `match_string`,
`match_alpha`, `match_digit`, `match_tz`, `parse_date`) and proves properties
of it.

Conventions of the embedding (an LP64 platform):

* A C string is a `List Char`.  The end of the list plays the role of the
  terminating NUL; reading at or past the end yields the NUL character, and a
  NUL character inside the list terminates the string exactly as it does in C.
* A pointer into the string is the suffix of the list that starts there, so
  `date + k` is `date.drop k` and `end - date` is
  `date.length - end.length`.
* `int` is 32 bits wide, `unsigned long` and `time_t` are 64 bits wide.  Values
  are mathematical integers; the conversions `to_int`, `to_ulong` and
  `to_time_t` reduce them into the range of the C type.  Signed arithmetic that
  can leave the range of `int` wraps around (two's complement).
* A text is taken to be shorter than 2^31 characters, so that the `int` a
  matcher returns is the number of characters between two pointers.
* `struct tm` is a record of integers and is passed and returned by value; an
  `int *offset` parameter becomes an argument and a component of the result.
* The host function `mktime` is a parameter of `parse_date`.
-/

namespace DateC

/-! ## Machine integers -/

/-- Conversion of an integer value to a 32-bit `int`. -/
def to_int (n : Int) : Int := (n + 2147483648) % 4294967296 - 2147483648

/-- Conversion of an integer value to a 64-bit `unsigned long`. -/
def to_ulong (n : Int) : Int := n % 18446744073709551616

/-- Conversion of an integer value to a 64-bit signed `time_t`. -/
def to_time_t (n : Int) : Int :=
  (n + 9223372036854775808) % 18446744073709551616 - 9223372036854775808

/-- The largest `unsigned long`. -/
def ULONG_MAX : Nat := 18446744073709551615

/-! ## `struct tm` -/

/-- The broken-down time record of `<time.h>`. -/
structure struct_tm where
  tm_sec : Int
  tm_min : Int
  tm_hour : Int
  tm_mday : Int
  tm_mon : Int
  tm_year : Int
  tm_wday : Int
  tm_yday : Int
  tm_isdst : Int
deriving DecidableEq, Repr

/-! ## `my_mktime` -/

/-- The table `mdays` of `my_mktime`: days before each month of a common year. -/
def mdays : List Int := [0, 31, 59, 90, 120, 151, 181, 212, 243, 273, 304, 334]

/-- The function `my_mktime`.  `tm->tm_year - 70` is kept unwrapped: for a
32-bit `tm_year` a wrapped difference is above 129, and the unwrapped one is
below 0, so both take the same `return -1`.  The decrement `day--` needs no
wrap of its own because the sum it enters is wrapped. -/
def my_mktime (tm : struct_tm) : Int :=
  let year := tm.tm_year - 70
  let month := tm.tm_mon
  let day := tm.tm_mday
  if year < 0 ∨ year > 129 then -1
  else if month < 0 ∨ month > 11 then -1
  else
    let day := if month < 2 ∨ (year + 2) % 4 ≠ 0 then day - 1 else day
    to_time_t (to_ulong
      (to_ulong (to_int ((year * 365 + (year + 1) / 4 + mdays.getD month.toNat 0 + day) * 24 * 60))
          * 60
        + to_ulong (to_int (tm.tm_hour * 60 * 60))
        + to_ulong (to_int (tm.tm_min * 60))
        + to_ulong tm.tm_sec))

/-! ## The Gregorian calendar (reference definitions for `my_mktime`) -/

/-- Gregorian leap-year rule. -/
def is_leap (Y : Nat) : Bool := (Y % 4 = 0 && Y % 100 != 0) || Y % 400 = 0

/-- Number of days of year `Y`. -/
def days_in_year (Y : Nat) : Nat := if is_leap Y then 366 else 365

/-- Number of days of month `M` (1..12) of year `Y`. -/
def days_in_month (Y M : Nat) : Nat :=
  if M = 2 then (if is_leap Y then 29 else 28)
  else if M = 4 ∨ M = 6 ∨ M = 9 ∨ M = 11 then 30
  else 31

/-- Number of days in the `k` years that start with 1970. -/
def days_in_years_from_1970 : Nat → Nat
  | 0 => 0
  | k + 1 => days_in_years_from_1970 k + days_in_year (1970 + k)

/-- Number of days in the first `k` months of year `Y`. -/
def days_in_first_months (Y : Nat) : Nat → Nat
  | 0 => 0
  | k + 1 => days_in_first_months Y k + days_in_month Y (k + 1)

/-- Number of days from 1970-01-01 to `Y`-`M`-`D`. -/
def days_from_epoch (Y M D : Nat) : Nat :=
  days_in_years_from_1970 (Y - 1970) + days_in_first_months Y (M - 1) + (D - 1)

/-- The date `Y`-`M`-`D` exists in the Gregorian calendar. -/
def valid_date (Y M D : Nat) : Prop :=
  1 ≤ M ∧ M ≤ 12 ∧ 1 ≤ D ∧ D ≤ days_in_month Y M

instance (Y M D : Nat) : Decidable (valid_date Y M D) := by
  unfold valid_date; infer_instance

/-! ## `<ctype.h>` in the C locale -/

/-- The NUL character, which terminates a C string. -/
def NUL : Char := Char.ofNat 0

/-- `isdigit`. -/
def isdigit (c : Char) : Bool := decide (48 ≤ c.toNat) && decide (c.toNat ≤ 57)

/-- `isupper`. -/
def isupper (c : Char) : Bool := decide (65 ≤ c.toNat) && decide (c.toNat ≤ 90)

/-- `islower`. -/
def islower (c : Char) : Bool := decide (97 ≤ c.toNat) && decide (c.toNat ≤ 122)

/-- `isalpha`. -/
def isalpha (c : Char) : Bool := isupper c || islower c

/-- `isalnum`. -/
def isalnum (c : Char) : Bool := isalpha c || isdigit c

/-- `isspace`: space, and the controls from horizontal tab to carriage return. -/
def isspace (c : Char) : Bool :=
  decide (c.toNat = 32) || (decide (9 ≤ c.toNat) && decide (c.toNat ≤ 13))

/-- `toupper`. -/
def toupper (c : Char) : Char := if islower c then Char.ofNat (c.toNat - 32) else c

/-! ## `strtoul` in base 10 -/

/-- The white space `strtoul` skips first. -/
def skip_space : List Char → List Char
  | [] => []
  | c :: cs => if isspace c then skip_space cs else c :: cs

/-- The digit loop of `strtoul`: the value accumulated over the leading run of
digits, and the rest of the text. -/
def scan_digits : List Char → Nat → Nat × List Char
  | [], acc => (acc, [])
  | c :: cs, acc =>
    if isdigit c then scan_digits cs (acc * 10 + (c.toNat - 48)) else (acc, c :: cs)

/-- The library function `strtoul(nptr, &end, 10)`: the value returned and the
text `end` points to.  White space is skipped, one sign is accepted, a value
that does not fit is `ULONG_MAX`, a negated value is taken modulo 2^64, and
when no digit follows the value is 0 and `end` is `nptr`. -/
def strtoul (nptr : List Char) : Nat × List Char :=
  let s := skip_space nptr
  let neg := decide (s.headD NUL = '-')
  let s1 := if s.headD NUL = '-' ∨ s.headD NUL = '+' then s.tail else s
  if isdigit (s1.headD NUL) then
    let r := scan_digits s1 0
    if r.1 > ULONG_MAX then (ULONG_MAX, r.2)
    else if neg then ((18446744073709551616 - r.1) % 18446744073709551616, r.2)
    else (r.1, r.2)
  else (0, nptr)

/-! ## The tables -/

/-- The table `month_names`. -/
def month_names : List String :=
  ["January", "February", "March", "April", "May", "June",
   "July", "August", "September", "October", "November", "December"]

/-- The table `weekday_names`. -/
def weekday_names : List String :=
  ["Sunday", "Monday", "Tuesday", "Wednesday", "Thursday", "Friday", "Saturday"]

/-- The table `timezone_names`: name and offset in hours. -/
def timezone_names : List (String × Int) :=
  [("IDLW", -12), ("NT", -11), ("CAT", -10), ("HST", -10), ("HDT", -9), ("YDT", -8),
   ("YST", -9), ("PST", -8), ("PDT", -7), ("MST", -7), ("MDT", -6), ("CST", -6),
   ("CDT", -5), ("EST", -5), ("EDT", -4), ("AST", -3), ("ADT", -2), ("WAT", -1),
   ("GMT", 0), ("UTC", 0),
   ("WET", 0), ("BST", 0), ("CET", 1), ("MET", 1), ("MEWT", 1), ("MEST", 2),
   ("CEST", 2), ("MESZ", 1), ("FWT", 1), ("FST", 2), ("EET", 2), ("WAST", 7),
   ("WADT", 8), ("CCT", 8), ("JST", 9), ("EAST", 10), ("EADT", 11), ("GST", 10),
   ("NZT", 11), ("NZST", 11), ("NZDT", 12), ("IDLE", 12)]

/-! ## `match_string` and `match_alpha` -/

/-- The loop of `match_string`: `date` and `str` advance together and `i`
counts the characters passed. -/
def match_string_loop : List Char → List Char → Nat → Nat
  | [], _, i => i
  | d :: date, str, i =>
    if d = NUL then i
    else if d = str.headD NUL then match_string_loop date str.tail (i + 1)
    else if toupper d = toupper (str.headD NUL) then match_string_loop date str.tail (i + 1)
    else if !isalnum d then i
    else 0

/-- The function `match_string`. -/
def match_string (date str : List Char) : Nat := match_string_loop date str 0

/-- One of the three `for` loops of `match_alpha`: the first index `i`, counted
from `i0`, whose name gives a match of at least 3, together with that match. -/
def first_match (date : List Char) : List String → Nat → Option (Nat × Nat)
  | [], _ => none
  | name :: rest, i0 =>
    if match_string date name.toList ≥ 3 then some (i0, match_string date name.toList)
    else first_match date rest (i0 + 1)

/-- The function `match_alpha`: the value returned, the record and the offset.
The product `60*timezone_names[i].offset` is at most 720 in absolute value and
needs no wrap. -/
def match_alpha (date : List Char) (tm : struct_tm) (offset : Int) :
    Nat × struct_tm × Int :=
  match first_match date month_names 0 with
  | some (i, m) => (m, { tm with tm_mon := (i : Int) }, offset)
  | none =>
    match first_match date weekday_names 0 with
    | some (i, m) => (m, { tm with tm_wday := (i : Int) }, offset)
    | none =>
      match first_match date (timezone_names.map Prod.fst) 0 with
      | some (i, m) => (m, tm, 60 * (timezone_names.getD i ("", 0)).2)
      | none => (0, tm, offset)

/-! ## `match_digit` -/

/-- The clock-time branch of `match_digit`, entered after `tm->tm_hour = num`
with `e` the text at the colon: the record and the final `end`. -/
def match_digit_time (e : List Char) (tm : struct_tm) : struct_tm × List Char :=
  let r2 := strtoul (e.drop 1)
  if r2.1 < 60 then
    let tm2 := { tm with tm_min := to_int r2.1 }
    if r2.2.headD NUL = ':' ∧ isdigit (r2.2.getD 1 NUL) then
      let r3 := strtoul (r2.2.drop 1)
      if r3.1 < 61 then ({ tm2 with tm_sec := to_int r3.1 }, r3.2) else (tm2, r3.2)
    else (tm2, r2.2)
  else (tm, r2.2)

/-- The `default:` label of the `switch` in `match_digit`. -/
def match_digit_default (num : Nat) (tm : struct_tm) : struct_tm :=
  if num > 0 ∧ num < 32 then { tm with tm_mday := to_int num }
  else if num > 1900 then { tm with tm_year := to_int ((num : Int) - 1900) }
  else if num > 70 then { tm with tm_year := to_int num }
  else tm

/-- The labels `case '-':` and `case '/':` of the `switch` in `match_digit`,
with `c` the delimiter and `e` the text at it: the record and the final `end`. -/
def match_digit_delim (c : Char) (num : Nat) (e : List Char) (tm : struct_tm) :
    struct_tm × List Char :=
  if num ≠ 0 ∧ num < 32 ∧ isdigit (e.getD 1 NUL) then
    let r2 := strtoul (e.drop 1)
    if r2.1 = 0 ∨ r2.1 > 31 then (tm, r2.2)
    else if num > 12 ∧ r2.1 > 12 then (tm, r2.2)
    else
      let mon := if num > 12 then r2.1 else num
      let mday := if num > 12 then num else r2.1
      let tm2 := { tm with tm_mon := to_int ((mon : Int) - 1), tm_mday := to_int mday }
      if r2.2.headD NUL = c ∧ isdigit (r2.2.getD 1 NUL) then
        let r3 := strtoul r2.2
        let num3 := if r3.1 > 1900 then r3.1 - 1900 else r3.1
        ({ tm2 with tm_year := to_int num3 }, r3.2)
      else (tm2, r2.2)
  else (tm, e)

/-- The function `match_digit`: the value returned, the record and the offset. -/
def match_digit (date : List Char) (tm : struct_tm) (offset : Int) :
    Nat × struct_tm × Int :=
  let r := strtoul date
  if r.1 < 24 ∧ r.2.headD NUL = ':' ∧ isdigit (r.2.getD 1 NUL) then
    let t := match_digit_time r.2 { tm with tm_hour := to_int r.1 }
    (date.length - t.2.length, t.1, offset)
  else
    let c := r.2.headD NUL
    if c = '-' ∨ c = '/' then
      let t := match_digit_delim c r.1 r.2 tm
      (date.length - t.2.length, t.1, offset)
    else (date.length - r.2.length, match_digit_default r.1 tm, offset)

/-! ## `match_tz` -/

/-- The function `match_tz`: the value returned and the offset stored. -/
def match_tz (date : List Char) : Nat × Int :=
  let r := strtoul (date.drop 1)
  let offset := to_int r.1
  let min := Int.tmod offset 100
  let hour := Int.tdiv offset 100
  let offset := to_int (hour * 60 + min)
  let offset := if date.headD NUL = '-' then to_int (-offset) else offset
  (date.length - r.2.length, offset)

/-! ## `parse_date` -/

/-- The record `parse_date` starts from: `memset` to 0, then year, month, day
and `tm_isdst` set to -1. -/
def fresh_tm : struct_tm :=
  { tm_sec := 0, tm_min := 0, tm_hour := 0, tm_mday := -1, tm_mon := -1, tm_year := -1,
    tm_wday := 0, tm_yday := 0, tm_isdst := -1 }

/-- One pass through the body of the scan loop of `parse_date` at a character
that does not stop the scan: the matcher called, with `match` replaced by 1
when it is 0. -/
def scan_step (date : List Char) (tm : struct_tm) (offset : Int) : Nat × struct_tm × Int :=
  let c := date.headD NUL
  let r : Nat × struct_tm × Int :=
    if isalpha c then match_alpha date tm offset
    else if isdigit c then match_digit date tm offset
    else if (c = '-' ∨ c = '+') ∧ isdigit (date.getD 1 NUL) then
      ((match_tz date).1, tm, (match_tz date).2)
    else (0, tm, offset)
  (if r.1 = 0 then 1 else r.1, r.2.1, r.2.2)

/-- The scan loop of `parse_date`, at most `fuel` passes. -/
def scan_loop : Nat → List Char → struct_tm → Int → struct_tm × Int
  | 0, _, tm, offset => (tm, offset)
  | fuel + 1, date, tm, offset =>
    let c := date.headD NUL
    if c = NUL ∨ c = Char.ofNat 10 then (tm, offset)
    else
      let r := scan_step date tm offset
      scan_loop fuel (date.drop r.1) r.2.1 r.2.2

/-- The scan loop of `parse_date` run to its end from a given state: every pass
removes at least one character, so `date.length` passes are enough. -/
def scan_from (date : List Char) (tm : struct_tm) (offset : Int) : struct_tm × Int :=
  scan_loop date.length date tm offset

/-- The scan loop of `parse_date` as `parse_date` runs it: from the fresh
record and the offset -1. -/
def scan (date : List Char) : struct_tm × Int := scan_from date fresh_tm (-1)

/-- The arguments `then`, `offset` that `parse_date` passes to `snprintf`, or
`none` when it returns before the call.  `mktime` is the host function. -/
def parse_date_values (mktime : struct_tm → Int) (date : List Char) : Option (Int × Int) :=
  let tm := (scan date).1
  let offset := (scan date).2
  let then_ := my_mktime tm
  let offset :=
    if offset = -1 then to_int (Int.tdiv (to_time_t (then_ - mktime tm)) 60) else offset
  if then_ = -1 then none
  else some (to_time_t (then_ - to_int (offset * 60)), offset)

/-- The conversion `%lu` of `printf`. -/
def fmt_lu (x : Int) : List Char := Nat.toDigits 10 (to_ulong x).toNat

/-- The conversion `%0<width>d` of `printf`, with the flag `+` when `plus`. -/
def fmt_0d (plus : Bool) (width : Nat) (x : Int) : List Char :=
  let sign := if x < 0 then ['-'] else if plus then ['+'] else []
  let ds := Nat.toDigits 10 x.natAbs
  sign ++ List.replicate (width - sign.length - ds.length) '0' ++ ds

/-- The text of the format `"%lu %+03d%02d"` for `then`, `offset/60`,
`offset % 60`. -/
def result_text (then_ offset : Int) : List Char :=
  fmt_lu then_ ++ [' '] ++ fmt_0d true 3 (Int.tdiv offset 60) ++ fmt_0d false 2 (Int.tmod offset 60)

/-- The function `parse_date`: the text stored in `result` (without its
terminating NUL), or `none` when nothing is stored.  `snprintf` stores at most
`maxlen - 1` characters, and nothing when `maxlen` is 0. -/
def parse_date (mktime : struct_tm → Int) (date : List Char) (maxlen : Nat) :
    Option (List Char) :=
  match parse_date_values mktime date with
  | none => none
  | some (then_, offset) =>
    if maxlen = 0 then none else some ((result_text then_ offset).take (maxlen - 1))

/-! ## The stores through `offset` during the scan -/

/-- Whether `match_alpha` stores through `offset`: its third loop does, which
runs when the first two find no name. -/
def match_alpha_stores (date : List Char) : Bool :=
  (first_match date month_names 0).isNone && (first_match date weekday_names 0).isNone
    && (first_match date (timezone_names.map Prod.fst) 0).isSome

/-- The value that the matcher called in one pass of the scan loop stores
through `offset`, or `none` when it stores nothing: `match_tz` always stores,
`match_alpha` stores for a timezone name, `match_digit` never stores. -/
def scan_step_store (date : List Char) (tm : struct_tm) (offset : Int) : Option Int :=
  let c := date.headD NUL
  if isalpha c then
    if match_alpha_stores date then some (match_alpha date tm offset).2.2 else none
  else if isdigit c then none
  else if (c = '-' ∨ c = '+') ∧ isdigit (date.getD 1 NUL) then some (match_tz date).2
  else none

/-- The scan loop of `parse_date` with the last value a matcher has stored
through `offset` carried along in `last` (`none` while no matcher has stored). -/
def last_store_loop : Nat → List Char → struct_tm → Int → Option Int → Option Int
  | 0, _, _, _, last => last
  | fuel + 1, date, tm, offset, last =>
    let c := date.headD NUL
    if c = NUL ∨ c = Char.ofNat 10 then last
    else
      let r := scan_step date tm offset
      let last1 :=
        match scan_step_store date tm offset with
        | some v => some v
        | none => last
      last_store_loop fuel (date.drop r.1) r.2.1 r.2.2 last1

/-- The last value a matcher stores through `offset` during the scan of
`parse_date`, or `none` when no matcher stores one. -/
def last_store (date : List Char) : Option Int :=
  last_store_loop date.length date fresh_tm (-1) none

/-! ## Matching a table name (reference definitions for `match_alpha`) -/

/-- The first `n` characters of the text `date` equal, ignoring case, the first
`n` characters of `name`, and the character of the text at position `n` is the
end of the text or is not alphanumeric. -/
def matches_name (date : List Char) (n : Nat) (name : List Char) : Prop :=
  n ≤ name.length
    ∧ (∀ i, i < n → toupper (date.getD i NUL) = toupper (name.getD i NUL))
    ∧ (date.getD n NUL = NUL ∨ isalnum (date.getD n NUL) = false)

instance (date : List Char) (n : Nat) (name : List Char) :
    Decidable (matches_name date n name) := by
  unfold matches_name; infer_instance

/-- The names of the three tables in the order `match_alpha` tries them:
months, weekdays, timezones. -/
def alpha_names : List String :=
  month_names ++ weekday_names ++ timezone_names.map Prod.fst

/-- The field that belongs to the name at index `k` of `alpha_names`, written
into the record and the offset: the month index, the weekday index, or 60
times the hour offset of the zone. -/
def alpha_write (k : Nat) (tm : struct_tm) (offset : Int) : struct_tm × Int :=
  if k < 12 then ({ tm with tm_mon := (k : Int) }, offset)
  else if k < 19 then ({ tm with tm_wday := ((k - 12 : Nat) : Int) }, offset)
  else (tm, 60 * (timezone_names.getD (k - 19) ("", 0)).2)

/-! ## Decimal numbers in the text (reference definitions) -/

/-- The value of a run of decimal digits. -/
def decimal_value (ds : List Char) : Nat :=
  ds.foldl (fun acc c => acc * 10 + (c.toNat - 48)) 0

/-- A non-empty run of decimal digits. -/
def is_number (ds : List Char) : Prop := ds ≠ [] ∧ ∀ c ∈ ds, isdigit c = true

instance (ds : List Char) : Decidable (is_number ds) := by
  unfold is_number; infer_instance

/-- The minutes of a numeric zone `<sign><digits>` read as hours*100 + minutes. -/
def hhmm_minutes (sign : Char) (zz : List Char) : Int :=
  let m : Int := ((decimal_value zz / 100 * 60 + decimal_value zz % 100 : Nat) : Int)
  if sign = '-' then -m else m

/-- The canonical text `<s> <sign><HHMM>` with the seconds and the zone given
by their digits. -/
def canonical_text (s : List Char) (sign : Char) (zz : List Char) : List Char :=
  s ++ ' ' :: sign :: zz

/-- The fields of a record are in the ranges of a calendar date and a clock
time: year 1970..2099, month index 0..11, day 1..31, hour 0..23, minute 0..59,
second 0..60. -/
def in_calendar_range (tm : struct_tm) : Prop :=
  0 ≤ tm.tm_year - 70 ∧ tm.tm_year - 70 ≤ 129 ∧ 0 ≤ tm.tm_mon ∧ tm.tm_mon ≤ 11
    ∧ 1 ≤ tm.tm_mday ∧ tm.tm_mday ≤ 31 ∧ 0 ≤ tm.tm_hour ∧ tm.tm_hour ≤ 23
    ∧ 0 ≤ tm.tm_min ∧ tm.tm_min ≤ 59 ∧ 0 ≤ tm.tm_sec ∧ tm.tm_sec ≤ 60

instance (tm : struct_tm) : Decidable (in_calendar_range tm) := by
  unfold in_calendar_range; infer_instance

/-- The records `a` and `b` agree on all of year, month, day, hour, minute and
second but one, and in that one `b` has the larger value. -/
def one_field_larger (a b : struct_tm) : Prop :=
  (a.tm_year < b.tm_year ∧ a.tm_mon = b.tm_mon ∧ a.tm_mday = b.tm_mday
      ∧ a.tm_hour = b.tm_hour ∧ a.tm_min = b.tm_min ∧ a.tm_sec = b.tm_sec)
    ∨ (a.tm_year = b.tm_year ∧ a.tm_mon < b.tm_mon ∧ a.tm_mday = b.tm_mday
      ∧ a.tm_hour = b.tm_hour ∧ a.tm_min = b.tm_min ∧ a.tm_sec = b.tm_sec)
    ∨ (a.tm_year = b.tm_year ∧ a.tm_mon = b.tm_mon ∧ a.tm_mday < b.tm_mday
      ∧ a.tm_hour = b.tm_hour ∧ a.tm_min = b.tm_min ∧ a.tm_sec = b.tm_sec)
    ∨ (a.tm_year = b.tm_year ∧ a.tm_mon = b.tm_mon ∧ a.tm_mday = b.tm_mday
      ∧ a.tm_hour < b.tm_hour ∧ a.tm_min = b.tm_min ∧ a.tm_sec = b.tm_sec)
    ∨ (a.tm_year = b.tm_year ∧ a.tm_mon = b.tm_mon ∧ a.tm_mday = b.tm_mday
      ∧ a.tm_hour = b.tm_hour ∧ a.tm_min < b.tm_min ∧ a.tm_sec = b.tm_sec)
    ∨ (a.tm_year = b.tm_year ∧ a.tm_mon = b.tm_mon ∧ a.tm_mday = b.tm_mday
      ∧ a.tm_hour = b.tm_hour ∧ a.tm_min = b.tm_min ∧ a.tm_sec < b.tm_sec)

instance (a b : struct_tm) : Decidable (one_field_larger a b) := by
  unfold one_field_larger; infer_instance

/-- The magnitude heuristics for a number `n` as the specification words them:
the day is `n` when 0 < n < 32, the year is `n - 1900` when n > 1900, the year
is `n` when 70 < n ≤ 1900, and nothing is written otherwise. -/
def magnitude_heuristics (n : Nat) (tm : struct_tm) : struct_tm :=
  if 0 < n ∧ n < 32 then { tm with tm_mday := (n : Int) }
  else if n > 1900 then { tm with tm_year := (n : Int) - 1900 }
  else if 70 < n ∧ n ≤ 1900 then { tm with tm_year := (n : Int) }
  else tm

/-! ## Lengths and reads (reference definitions) -/

/-- The library function `strlen`: the number of characters before the NUL
that ends the string. -/
def strlen : List Char → Nat
  | [] => 0
  | c :: cs => if c = NUL then 0 else 1 + strlen cs

/-- The indices at which the loop of `match_string` reads `str`: every pass
that finds `*date` not NUL reads `*str`, at the index `i` the loop has
reached, and the loop goes on only when the two characters agree. -/
def match_string_reads : List Char → List Char → Nat → List Nat
  | [], _, _ => []
  | d :: date, str, i =>
    if d = NUL then []
    else i :: (if d = str.headD NUL then match_string_reads date str.tail (i + 1)
               else if toupper d = toupper (str.headD NUL) then
                 match_string_reads date str.tail (i + 1)
               else [])

/-! ## The calls of the matchers (reference definitions) -/

/-- A call of one of the three matchers on a text. -/
inductive matcher_call where
  | alpha (date : List Char)
  | digit (date : List Char)
  | tz (date : List Char)

/-- The record and the offset after one call of a matcher. -/
def run_call : matcher_call → struct_tm × Int → struct_tm × Int
  | matcher_call.alpha date, st => (match_alpha date st.1 st.2).2
  | matcher_call.digit date, st => (match_digit date st.1 st.2).2
  | matcher_call.tz date, st => (st.1, (match_tz date).2)

/-- The record and the offset after a sequence of calls of the matchers. -/
def run_calls (calls : List matcher_call) (st : struct_tm × Int) : struct_tm × Int :=
  calls.foldl (fun s c => run_call c s) st

/-- The range invariant of the calendar record: the month is -1 or in 0..11,
the day is -1 or in 1..31, the hour is in 0..23, the minute in 0..59 and the
second in 0..60. -/
def record_in_range (tm : struct_tm) : Prop :=
  (tm.tm_mon = -1 ∨ (0 ≤ tm.tm_mon ∧ tm.tm_mon ≤ 11))
    ∧ (tm.tm_mday = -1 ∨ (1 ≤ tm.tm_mday ∧ tm.tm_mday ≤ 31))
    ∧ (0 ≤ tm.tm_hour ∧ tm.tm_hour ≤ 23)
    ∧ (0 ≤ tm.tm_min ∧ tm.tm_min ≤ 59)
    ∧ (0 ≤ tm.tm_sec ∧ tm.tm_sec ≤ 60)

instance (tm : struct_tm) : Decidable (record_in_range tm) := by
  unfold record_in_range; infer_instance

/-! ## Pointers and termination (reference definitions) -/

/-- The pointer `e` lies in the string `s`: it is `s + k` for some `k` that is
at most `strlen s`. -/
def points_into (s e : List Char) : Prop := ∃ k, k ≤ strlen s ∧ e = s.drop k

/-- The scan loop of `parse_date` reaches its `break` after at most `fuel`
passes. -/
def scan_halts : Nat → List Char → struct_tm → Int → Bool
  | 0, date, _, _ => decide (date.headD NUL = NUL ∨ date.headD NUL = Char.ofNat 10)
  | fuel + 1, date, tm, offset =>
    if date.headD NUL = NUL ∨ date.headD NUL = Char.ofNat 10 then true
    else
      scan_halts fuel (date.drop (scan_step date tm offset).1) (scan_step date tm offset).2.1
        (scan_step date tm offset).2.2

/-! ## Reading the canonical text back (reference definition) -/

theorem is_leap_in_span (k : Nat) (hk : k < 130) :
    is_leap (1970 + k) = decide ((k + 2) % 4 = 0) := by
  unfold is_leap
  rcases Nat.lt_or_ge ((k + 2) % 4) 1 with h | h
  · have h4 : (1970 + k) % 4 = 0 := by omega
    have h100 : (1970 + k) % 100 ≠ 0 ∨ (1970 + k) % 400 = 0 := by omega
    have h0 : (k + 2) % 4 = 0 := by omega
    rcases h100 with h1 | h1 <;> simp [h4, h1, h0]
  · have h4 : (1970 + k) % 4 ≠ 0 := by omega
    have h400 : (1970 + k) % 400 ≠ 0 := by omega
    have h0 : (k + 2) % 4 ≠ 0 := by omega
    simp [h4, h400, h0]

theorem days_in_years_closed (k : Nat) (hk : k ≤ 130) :
    days_in_years_from_1970 k = k * 365 + (k + 1) / 4 := by
  induction k with
  | zero => rfl
  | succ n ih =>
    have hn := ih (by omega)
    have hl := is_leap_in_span n (by omega)
    simp only [days_in_years_from_1970, days_in_year, hn, hl]
    by_cases h : (n + 2) % 4 = 0
    · simp only [h, decide_True, if_true]; omega
    · simp only [h, decide_False]; simp; omega

theorem days_in_first_months_closed (Y m : Nat) (hm : m < 12) :
    (days_in_first_months Y m : Int) =
      mdays.getD m 0 + (if m < 2 ∨ is_leap Y = false then 0 else 1) := by
  have hcases : m = 0 ∨ m = 1 ∨ m = 2 ∨ m = 3 ∨ m = 4 ∨ m = 5 ∨ m = 6 ∨ m = 7 ∨ m = 8
      ∨ m = 9 ∨ m = 10 ∨ m = 11 := by omega
  cases hY : is_leap Y <;>
    rcases hcases with h | h | h | h | h | h | h | h | h | h | h | h <;>
    subst h <;>
    simp [days_in_first_months, days_in_month, hY, mdays]

theorem to_int_of_range (n : Int) (h1 : -2147483648 ≤ n) (h2 : n < 2147483648) :
    to_int n = n := by
  unfold to_int; omega

theorem to_ulong_of_range (n : Int) (h1 : 0 ≤ n) (h2 : n < 18446744073709551616) :
    to_ulong n = n := by
  unfold to_ulong; omega

theorem to_time_t_of_range (n : Int) (h1 : -9223372036854775808 ≤ n)
    (h2 : n < 9223372036854775808) : to_time_t n = n := by
  unfold to_time_t; omega

theorem mdays_bounds (m : Nat) (hm : m < 12) :
    0 ≤ mdays.getD m 0 ∧ mdays.getD m 0 ≤ 334 := by
  have hcases : m = 0 ∨ m = 1 ∨ m = 2 ∨ m = 3 ∨ m = 4 ∨ m = 5 ∨ m = 6 ∨ m = 7 ∨ m = 8
      ∨ m = 9 ∨ m = 10 ∨ m = 11 := by omega
  rcases hcases with h | h | h | h | h | h | h | h | h | h | h | h <;>
    subst h <;> simp [mdays]

/-- The seconds expression of `my_mktime` when no intermediate value leaves the
range of its C type. -/
theorem seconds_expr_in_range (days hour min sec : Int)
    (hd1 : 0 ≤ days) (hd2 : days ≤ 1491308)
    (hh1 : 0 ≤ hour) (hh2 : hour ≤ 596523)
    (hm1 : 0 ≤ min) (hm2 : min ≤ 35791394)
    (hs1 : 0 ≤ sec) (hs2 : sec < 2147483648) :
    to_time_t (to_ulong
      (to_ulong (to_int (days * 24 * 60)) * 60
        + to_ulong (to_int (hour * 60 * 60))
        + to_ulong (to_int (min * 60))
        + to_ulong sec))
      = days * 86400 + hour * 3600 + min * 60 + sec := by
  rw [to_int_of_range (days * 24 * 60) (by omega) (by omega),
    to_int_of_range (hour * 60 * 60) (by omega) (by omega),
    to_int_of_range (min * 60) (by omega) (by omega),
    to_ulong_of_range (days * 24 * 60) (by omega) (by omega),
    to_ulong_of_range (hour * 60 * 60) (by omega) (by omega),
    to_ulong_of_range (min * 60) (by omega) (by omega),
    to_ulong_of_range sec (by omega) (by omega),
    to_ulong_of_range _ (by omega) (by omega),
    to_time_t_of_range _ (by omega) (by omega)]
  omega

/-- The value `my_mktime` computes when both range checks pass and the fields
are those a calendar date and a clock time can have (the day may also be the
unset value -1 of `parse_date`, except in January 1970). -/
theorem my_mktime_in_range (tm : struct_tm) (y m : Nat) (hy : y < 130) (hm : m < 12)
    (hyear : tm.tm_year = (y : Int) + 70) (hmon : tm.tm_mon = (m : Int))
    (hd1 : 1 ≤ tm.tm_mday) (hd2 : tm.tm_mday ≤ 31)
    (hh1 : 0 ≤ tm.tm_hour) (hh2 : tm.tm_hour < 24)
    (hm1 : 0 ≤ tm.tm_min) (hm2 : tm.tm_min < 60)
    (hs1 : 0 ≤ tm.tm_sec) (hs2 : tm.tm_sec < 61) :
    my_mktime tm =
      ((y : Int) * 365 + ((y : Int) + 1) / 4 + mdays.getD m 0 + tm.tm_mday
          - (if m < 2 ∨ (y + 2) % 4 ≠ 0 then 1 else 0)) * 86400
        + tm.tm_hour * 3600 + tm.tm_min * 60 + tm.tm_sec := by
  obtain ⟨hmd1, hmd2⟩ := mdays_bounds m hm
  unfold my_mktime
  simp only [hyear, hmon, Int.toNat_ofNat]
  generalize mdays.getD m 0 = md at hmd1 hmd2 ⊢
  have e1 : ¬ ((y : Int) + 70 - 70 < 0 ∨ (y : Int) + 70 - 70 > 129) := by omega
  have e2 : ¬ ((m : Int) < 0 ∨ (m : Int) > 11) := by omega
  have e3 : (y : Int) + 70 - 70 = y := by omega
  rw [if_neg e1, if_neg e2, e3]
  by_cases hc : m < 2 ∨ (y + 2) % 4 ≠ 0
  · have hc2 : (m : Int) < 2 ∨ ((y : Int) + 2) % 4 ≠ 0 := by omega
    rw [if_pos hc, if_pos hc2]
    rw [seconds_expr_in_range _ _ _ _ (by omega) (by omega) hh1 (by omega) hm1 (by omega)
      hs1 (by omega)]
    omega
  · have hc2 : ¬ ((m : Int) < 2 ∨ ((y : Int) + 2) % 4 ≠ 0) := by omega
    rw [if_neg hc, if_neg hc2]
    rw [seconds_expr_in_range _ _ _ _ (by omega) (by omega) hh1 (by omega) hm1 (by omega)
      hs1 (by omega)]
    omega

/-- C1: for every Gregorian date `Y`-`M`-`D` with 1970 ≤ Y ≤ 2099, passed as
`tm_year = Y - 1900`, `tm_mon = M - 1`, `tm_mday = D`, and every hour in 0..23,
minute in 0..59 and second in 0..60, `my_mktime` returns 86400 times the number
of days from 1970-01-01 to that date plus 3600*hour + 60*minute + second. -/
theorem my_mktime_gregorian (tm : struct_tm) (Y M D h m s : Nat)
    (hY1 : 1970 ≤ Y) (hY2 : Y ≤ 2099) (hv : valid_date Y M D)
    (hh : h < 24) (hm : m < 60) (hs : s ≤ 60)
    (hyear : tm.tm_year = (Y : Int) - 1900) (hmon : tm.tm_mon = (M : Int) - 1)
    (hday : tm.tm_mday = (D : Int))
    (hhour : tm.tm_hour = (h : Int)) (hmin : tm.tm_min = (m : Int))
    (hsec : tm.tm_sec = (s : Int)) :
    my_mktime tm = 86400 * (days_from_epoch Y M D : Int) + 3600 * h + 60 * m + s := by
  obtain ⟨hM1, hM2, hD1, hD2⟩ := hv
  have hD31 : D ≤ 31 := by
    refine le_trans hD2 ?_
    unfold days_in_month
    split_ifs <;> omega
  obtain ⟨y, rfl⟩ : ∃ y, Y = 1970 + y := ⟨Y - 1970, by omega⟩
  obtain ⟨k, rfl⟩ : ∃ k, M = k + 1 := ⟨M - 1, by omega⟩
  have hk : k < 12 := by omega
  have hy : y < 130 := by omega
  rw [my_mktime_in_range tm y k hy hk (by rw [hyear]; push_cast; omega)
    (by rw [hmon]; push_cast; omega) (by omega) (by omega) (by omega) (by omega)
    (by omega) (by omega) (by omega) (by omega)]
  have hyears := days_in_years_closed y (by omega)
  have hmonths := days_in_first_months_closed (1970 + y) k hk
  have hleap := is_leap_in_span y hy
  unfold days_from_epoch
  simp only [Nat.add_sub_cancel_left, Nat.add_sub_cancel]
  push_cast
  rw [hmonths, hyears, hleap, hday, hhour, hmin, hsec]
  push_cast
  have hdiv : (((y + 1) / 4 : Nat) : Int) = ((y : Int) + 1) / 4 := by push_cast; rfl
  obtain ⟨q, hq⟩ : ∃ q : Int, q = ((y : Int) + 1) / 4 := ⟨_, rfl⟩
  rw [← hq]
  generalize mdays.getD k 0 = md
  have hDsub : ((D - 1 : Nat) : Int) = (D : Int) - 1 := by omega
  rw [hDsub]
  by_cases hc : (y + 2) % 4 = 0
  · by_cases hk2 : k < 2
    · simp [hc, hk2]; ring
    · simp [hc, hk2]; ring
  · simp [hc]; ring

/-- Witness for C1: 2021-01-07 10:30:00. -/
theorem my_mktime_gregorian_witness :
    my_mktime ⟨0, 30, 10, 7, 0, 121, 0, 0, 0⟩ =
      86400 * (days_from_epoch 2021 1 7 : Int) + 3600 * (10 : Nat) + 60 * (30 : Nat)
        + (0 : Nat) :=
  my_mktime_gregorian ⟨0, 30, 10, 7, 0, 121, 0, 0, 0⟩ 2021 1 7 10 30 0
    (by decide) (by decide) (by decide) (by decide) (by decide) (by decide)
    (by decide) (by decide) (by decide) (by decide) (by decide) (by decide)

/-! ## Lemmas on `strtoul` -/

theorem isdigit_toNat (c : Char) (h : isdigit c = true) : 48 ≤ c.toNat ∧ c.toNat ≤ 57 := by
  simpa [isdigit] using h

theorem isdigit_not_isspace (c : Char) (h : isdigit c = true) : isspace c = false := by
  have hc := isdigit_toNat c h
  simp only [isspace, Bool.or_eq_false_iff, Bool.and_eq_false_iff, decide_eq_false_iff_not]
  omega

theorem isdigit_ne_minus (c : Char) (h : isdigit c = true) : c ≠ '-' := by
  rintro rfl; exact absurd h (by decide)

theorem isdigit_ne_plus (c : Char) (h : isdigit c = true) : c ≠ '+' := by
  rintro rfl; exact absurd h (by decide)

theorem isdigit_ne_colon (c : Char) (h : isdigit c = true) : c ≠ ':' := by
  rintro rfl; exact absurd h (by decide)

theorem isdigit_ne_slash (c : Char) (h : isdigit c = true) : c ≠ '/' := by
  rintro rfl; exact absurd h (by decide)

theorem isdigit_ne_NUL (c : Char) (h : isdigit c = true) : c ≠ NUL := by
  rintro rfl; exact absurd h (by decide)

theorem isdigit_not_isalpha (c : Char) (h : isdigit c = true) : isalpha c = false := by
  have hc := isdigit_toNat c h
  simp only [isalpha, isupper, islower, Bool.or_eq_false_iff, Bool.and_eq_false_iff,
    decide_eq_false_iff_not]
  omega

theorem scan_digits_append (ds rest : List Char) (acc : Nat)
    (hds : ∀ c ∈ ds, isdigit c = true) (hrest : isdigit (rest.headD NUL) = false) :
    scan_digits (ds ++ rest) acc
      = (ds.foldl (fun a c => a * 10 + (c.toNat - 48)) acc, rest) := by
  induction ds generalizing acc with
  | nil =>
    cases rest with
    | nil => rfl
    | cons c cs =>
      have hc : isdigit c = false := by simpa using hrest
      simp [scan_digits, hc]
  | cons d ds ih =>
    have hd : isdigit d = true := hds d (List.mem_cons_self _ _)
    have hrec := ih (acc * 10 + (d.toNat - 48)) (fun c hc => hds c (List.mem_cons_of_mem _ hc))
    simp [scan_digits, hd, hrec]

/-- `strtoul` on a number followed by a character that is not a digit: the
value of the number, at most `ULONG_MAX`, and the text after it. -/
theorem strtoul_number (ds rest : List Char) (hds : is_number ds)
    (hrest : isdigit (rest.headD NUL) = false) :
    strtoul (ds ++ rest) = (min (decimal_value ds) ULONG_MAX, rest) := by
  obtain ⟨hne, hall⟩ := hds
  cases ds with
  | nil => exact absurd rfl hne
  | cons d ds =>
    have hd : isdigit d = true := hall d (List.mem_cons_self _ _)
    have hskip : skip_space ((d :: ds) ++ rest) = (d :: ds) ++ rest := by
      simp [skip_space, isdigit_not_isspace d hd]
    have hsd := scan_digits_append (d :: ds) rest 0 hall hrest
    unfold strtoul
    simp only [hskip]
    simp only [List.cons_append, List.headD_cons, isdigit_ne_minus d hd, isdigit_ne_plus d hd,
      or_self, if_false, hd, if_true, decide_False]
    rw [← List.cons_append, hsd]
    simp only [decimal_value]
    by_cases hbig : List.foldl (fun a c => a * 10 + (c.toNat - 48)) 0 (d :: ds) > ULONG_MAX
    · simp only [hbig, if_true]
      rw [Nat.min_eq_right (Nat.le_of_lt hbig)]
    · simp only [hbig, if_false]
      rw [Nat.min_eq_left (Nat.le_of_not_lt hbig)]
      simp

theorem strtoul_small (ds rest : List Char) (hds : is_number ds)
    (hrest : isdigit (rest.headD NUL) = false) (hv : decimal_value ds ≤ ULONG_MAX) :
    strtoul (ds ++ rest) = (decimal_value ds, rest) := by
  rw [strtoul_number ds rest hds hrest, Nat.min_eq_left hv]

theorem getD_zero_headD (l : List Char) (d : Char) : l.getD 0 d = l.headD d := by
  cases l <;> rfl

theorem is_number_head (ds rest : List Char) (hds : is_number ds) :
    isdigit ((ds ++ rest).headD NUL) = true := by
  obtain ⟨hne, hall⟩ := hds
  cases ds with
  | nil => exact absurd rfl hne
  | cons d ds => simpa using hall d (List.mem_cons_self _ _)

/-! ## Lemmas on `match_digit` -/

/-- The clock-time branch of `match_digit` on `h:m:s`. -/
theorem match_digit_clock (dh dm ds rest : List Char) (tm : struct_tm) (offset : Int)
    (hh : is_number dh) (hm : is_number dm) (hs : is_number ds)
    (hrest : isdigit (rest.headD NUL) = false)
    (h1 : decimal_value dh < 24) (h2 : decimal_value dm < 60) (h3 : decimal_value ds < 61) :
    match_digit (dh ++ ':' :: (dm ++ ':' :: (ds ++ rest))) tm offset
      = (dh.length + 1 + dm.length + 1 + ds.length,
          { tm with tm_hour := (decimal_value dh : Int), tm_min := (decimal_value dm : Int),
                    tm_sec := (decimal_value ds : Int) },
          offset) := by
  have e1 : strtoul (dh ++ ':' :: (dm ++ ':' :: (ds ++ rest)))
      = (decimal_value dh, ':' :: (dm ++ ':' :: (ds ++ rest))) :=
    strtoul_small _ _ hh (by rfl) (by unfold ULONG_MAX; omega)
  have e2 : strtoul (dm ++ ':' :: (ds ++ rest)) = (decimal_value dm, ':' :: (ds ++ rest)) :=
    strtoul_small _ _ hm (by rfl) (by unfold ULONG_MAX; omega)
  have e3 : strtoul (ds ++ rest) = (decimal_value ds, rest) :=
    strtoul_small _ _ hs hrest (by unfold ULONG_MAX; omega)
  have d2 := is_number_head dm (':' :: (ds ++ rest)) hm
  have d3 := is_number_head ds rest hs
  have i1 : to_int (decimal_value dh) = decimal_value dh := to_int_of_range _ (by omega) (by omega)
  have i2 : to_int (decimal_value dm) = decimal_value dm := to_int_of_range _ (by omega) (by omega)
  have i3 : to_int (decimal_value ds) = decimal_value ds := to_int_of_range _ (by omega) (by omega)
  unfold match_digit
  simp only [e1, h1, List.headD_cons, List.getD_cons_succ, List.getD_cons_zero, true_and,
    if_true, match_digit_time, List.drop_succ_cons, List.drop_zero, e2, h2, e3, h3, i1, i2, i3]
  simp only [getD_zero_headD, d2, d3, and_self, if_true, List.length_append, List.length_cons]
  refine Prod.ext ?_ rfl
  simp only
  omega

/-- The default branch of `match_digit`: a number followed by a character that
is neither a digit nor one of `:`, `-`, `/`. -/
theorem match_digit_plain (ds rest : List Char) (tm : struct_tm) (offset : Int)
    (hds : is_number ds) (hrest : isdigit (rest.headD NUL) = false)
    (hc : rest.headD NUL ≠ ':') (hm : rest.headD NUL ≠ '-') (hs : rest.headD NUL ≠ '/') :
    match_digit (ds ++ rest) tm offset
      = (ds.length, match_digit_default (min (decimal_value ds) ULONG_MAX) tm, offset) := by
  unfold match_digit
  simp only [strtoul_number ds rest hds hrest, hc, false_and, and_false, if_false, hm, hs,
    or_self, List.length_append, Nat.add_sub_cancel]

/-! ## Lemmas on `match_tz` -/

/-- The function `match_tz` on a sign and a number below 2^31. -/
theorem match_tz_small (sign : Char) (ds rest : List Char) (hds : is_number ds)
    (hrest : isdigit (rest.headD NUL) = false) (hv : decimal_value ds < 2147483648) :
    match_tz (sign :: (ds ++ rest)) = (1 + ds.length, hhmm_minutes sign ds) := by
  have e : strtoul (ds ++ rest) = (decimal_value ds, rest) :=
    strtoul_small _ _ hds hrest (by unfold ULONG_MAX; omega)
  have i1 : to_int (decimal_value ds) = decimal_value ds :=
    to_int_of_range _ (by omega) (by omega)
  unfold match_tz hhmm_minutes
  simp only [List.drop_succ_cons, List.drop_zero, e, i1, List.headD_cons, List.length_cons,
    List.length_append]
  rw [Int.tdiv_eq_ediv (by omega) (by omega), Int.tmod_eq_emod (by omega) (by omega)]
  have hq : decimal_value ds / 100 * 60 + decimal_value ds % 100 < 2147483648 := by omega
  have i2 : to_int ((decimal_value ds : Int) / 100 * 60 + (decimal_value ds : Int) % 100)
      = ((decimal_value ds / 100 * 60 + decimal_value ds % 100 : Nat) : Int) := by
    rw [to_int_of_range _ (by omega) (by omega)]; push_cast; ring
  rw [i2]
  refine Prod.ext (by simp only; omega) ?_
  by_cases hsg : sign = '-'
  · simp only [hsg, if_true]
    exact to_int_of_range _ (by omega) (by omega)
  · simp only [hsg, if_false]

/-! ## Lemmas on the scan loop -/

theorem scan_step_pos (date : List Char) (tm : struct_tm) (offset : Int) :
    1 ≤ (scan_step date tm offset).1 := by
  unfold scan_step
  simp only
  split_ifs <;> omega

theorem scan_loop_nil (fuel : Nat) (tm : struct_tm) (offset : Int) :
    scan_loop fuel [] tm offset = (tm, offset) := by
  cases fuel with
  | zero => rfl
  | succ n => simp [scan_loop]

/-- The result of the scan loop does not depend on the fuel once the fuel
reaches the length of the text. -/
theorem scan_loop_fuel (fuel1 : Nat) : ∀ (fuel2 : Nat) (date : List Char) (tm : struct_tm)
    (offset : Int), date.length ≤ fuel1 → date.length ≤ fuel2 →
    scan_loop fuel1 date tm offset = scan_loop fuel2 date tm offset := by
  induction fuel1 with
  | zero =>
    intro fuel2 date tm offset h1 _
    have hnil : date = [] := List.length_eq_zero.mp (Nat.le_zero.mp h1)
    subst hnil
    rw [scan_loop_nil, scan_loop_nil]
  | succ n ih =>
    intro fuel2 date tm offset h1 h2
    cases date with
    | nil => rw [scan_loop_nil, scan_loop_nil]
    | cons c cs =>
      cases fuel2 with
      | zero => simp at h2
      | succ k =>
        simp only [scan_loop]
        split_ifs with hstop
        · rfl
        · have hpos := scan_step_pos (c :: cs) tm offset
          have hlen : (List.drop (scan_step (c :: cs) tm offset).1 (c :: cs)).length
              ≤ cs.length := by
            rw [List.length_drop]; simp only [List.length_cons]; omega
          simp only [List.length_cons] at h1 h2
          exact ih k _ _ _ (by omega) (by omega)

theorem scan_from_stop (date : List Char) (tm : struct_tm) (offset : Int)
    (h : date.headD NUL = NUL ∨ date.headD NUL = Char.ofNat 10) :
    scan_from date tm offset = (tm, offset) := by
  unfold scan_from
  cases date with
  | nil => rfl
  | cons c cs => simp only [List.length_cons, scan_loop, h, if_true]

/-- One pass of the scan loop: a matcher removes `n` characters. -/
theorem scan_from_token (c : Char) (cs rest : List Char) (tm tm1 : struct_tm) (off off1 : Int)
    (n : Nat) (h1 : c ≠ NUL) (h2 : c ≠ Char.ofNat 10)
    (hstep : scan_step (c :: cs) tm off = (n, tm1, off1)) (hdrop : (c :: cs).drop n = rest) :
    scan_from (c :: cs) tm off = scan_from rest tm1 off1 := by
  unfold scan_from
  have hpos := scan_step_pos (c :: cs) tm off
  rw [hstep] at hpos
  simp only [List.length_cons, scan_loop, List.headD_cons]
  rw [if_neg (by simp only [not_or]; exact ⟨h1, h2⟩), hstep]
  simp only [hdrop]
  apply scan_loop_fuel
  · rw [← hdrop, List.length_drop]; simp only [List.length_cons] at *; omega
  · exact Nat.le_refl _

theorem scan_from_space (rest : List Char) (tm : struct_tm) (off : Int) :
    scan_from (' ' :: rest) tm off = scan_from rest tm off :=
  scan_from_token _ _ _ _ _ _ _ 1 (by decide) (by decide) rfl rfl

/-- A pass of the scan loop at a digit calls `match_digit`. -/
theorem scan_from_digit (ds rest rest1 : List Char) (tm tm1 : struct_tm) (off off1 : Int)
    (n : Nat) (hds : is_number ds) (hn : n ≠ 0)
    (hmatch : match_digit (ds ++ rest) tm off = (n, tm1, off1))
    (hdrop : (ds ++ rest).drop n = rest1) :
    scan_from (ds ++ rest) tm off = scan_from rest1 tm1 off1 := by
  obtain ⟨hne, hall⟩ := hds
  cases ds with
  | nil => exact absurd rfl hne
  | cons d ds =>
    have hd : isdigit d = true := hall d (List.mem_cons_self _ _)
    refine scan_from_token d (ds ++ rest) rest1 tm tm1 off off1 n (isdigit_ne_NUL d hd) ?_ ?_
      hdrop
    · rintro rfl; exact absurd hd (by decide)
    · have hmatch1 : match_digit (d :: (ds ++ rest)) tm off = (n, tm1, off1) := hmatch
      unfold scan_step
      simp only [List.headD_cons, isdigit_not_isalpha d hd, hd, if_true, hmatch1, hn, if_false]
      simp [hn]

theorem scan_from_number_space (ds rest : List Char) (tm : struct_tm) (off : Int)
    (hds : is_number ds) :
    scan_from (ds ++ ' ' :: rest) tm off
      = scan_from (' ' :: rest)
          (match_digit_default (min (decimal_value ds) ULONG_MAX) tm) off := by
  have hlen : ds.length ≠ 0 := by
    intro h; exact hds.1 (List.length_eq_zero.mp h)
  refine scan_from_digit ds (' ' :: rest) _ tm _ off off ds.length hds hlen ?_
    (List.drop_left ds _)
  have k1 : (' ' :: rest).headD NUL ≠ ':' := by simp
  have k2 : (' ' :: rest).headD NUL ≠ '-' := by simp
  have k3 : (' ' :: rest).headD NUL ≠ '/' := by simp
  rw [match_digit_plain ds (' ' :: rest) tm off hds rfl k1 k2 k3]

/-- The function `match_tz` at a sign and a number: the sign and the digits
are consumed, whatever the value. -/
theorem match_tz_length (sign : Char) (ds rest : List Char) (hds : is_number ds)
    (hrest : isdigit (rest.headD NUL) = false) :
    (match_tz (sign :: (ds ++ rest))).1 = 1 + ds.length := by
  unfold match_tz
  simp only [List.drop_succ_cons, List.drop_zero, strtoul_number ds rest hds hrest,
    List.length_cons, List.length_append]
  omega

/-- The pass of the scan loop at a sign and a final number calls `match_tz`
and ends the scan. -/
theorem scan_from_final_zone (sign : Char) (zz : List Char) (tm : struct_tm) (off : Int)
    (hsign : sign = '+' ∨ sign = '-') (hz : is_number zz) :
    scan_from (sign :: zz) tm off = (tm, (match_tz (sign :: zz)).2) := by
  have hm := match_tz_length sign zz [] hz rfl
  rw [List.append_nil] at hm
  have hd : isdigit ((sign :: zz).getD 1 NUL) = true := by
    rw [List.getD_cons_succ, getD_zero_headD]
    simpa using is_number_head zz [] hz
  have hstep : scan_step (sign :: zz) tm off
      = (1 + zz.length, tm, (match_tz (sign :: zz)).2) := by
    unfold scan_step
    rcases hsign with rfl | rfl <;>
      simp only [List.headD_cons, hd, hm] <;> simp [isalpha, isupper, islower, isdigit]
  have h1 : sign ≠ NUL := by rcases hsign with rfl | rfl <;> decide
  have h2 : sign ≠ Char.ofNat 10 := by rcases hsign with rfl | rfl <;> decide
  rw [scan_from_token sign zz [] tm tm off _ (1 + zz.length) h1 h2 hstep
    (by simp [Nat.add_comm])]
  exact scan_from_stop [] _ _ (Or.inl rfl)

theorem match_digit_default_mon (num : Nat) (tm : struct_tm) :
    (match_digit_default num tm).tm_mon = tm.tm_mon := by
  unfold match_digit_default
  split_ifs <;> rfl

theorem my_mktime_unset_month (tm : struct_tm) (h : tm.tm_mon = -1) : my_mktime tm = -1 := by
  unfold my_mktime
  simp only [h]
  by_cases h1 : tm.tm_year - 70 < 0 ∨ tm.tm_year - 70 > 129
  · rw [if_pos h1]
  · rw [if_neg h1, if_pos (Or.inl (by decide))]

theorem my_mktime_unset_year (tm : struct_tm) (h : tm.tm_year = -1) : my_mktime tm = -1 := by
  unfold my_mktime
  simp only [h]
  rfl

theorem parse_date_none_of_failure (mktime : struct_tm → Int) (date : List Char) (maxlen : Nat)
    (h : my_mktime (scan date).1 = -1) : parse_date mktime date maxlen = none := by
  unfold parse_date parse_date_values
  simp only [h, if_true]

/-- C3 (counterexample): `parse_date` stores nothing for the canonical text
"1136073600 +0000", so it does not give back the seconds and the offset. -/
theorem parse_date_canonical_counterexample :
    parse_date (fun _ => 0) "1136073600 +0000".toList 64 = none
      ∧ parse_date_values (fun _ => 0) "1136073600 +0000".toList ≠ some (1136073600, 0) := by
  decide

/-- C3 (amended): for every canonical text `<s> <sign><digits>` `parse_date`
produces no output, because the text sets no month. -/
theorem parse_date_canonical_none (mktime : struct_tm → Int) (s zz : List Char) (sign : Char)
    (maxlen : Nat) (hs : is_number s) (hsign : sign = '+' ∨ sign = '-') (hz : is_number zz) :
    (scan (canonical_text s sign zz)).1.tm_mon = -1
      ∧ parse_date_values mktime (canonical_text s sign zz) = none
      ∧ parse_date mktime (canonical_text s sign zz) maxlen = none := by
  have hscan : (scan (canonical_text s sign zz)).1.tm_mon = -1 := by
    unfold scan canonical_text
    rw [scan_from_number_space s _ _ _ hs, scan_from_space,
      scan_from_final_zone sign zz _ _ hsign hz]
    simp only [match_digit_default_mon]
    rfl
  have hfail := my_mktime_unset_month _ hscan
  refine ⟨hscan, ?_, parse_date_none_of_failure mktime _ maxlen hfail⟩
  unfold parse_date_values
  simp only [hfail, if_true]

/-- Witness for C3 (amended): the canonical text "1136073600 +0000". -/
theorem parse_date_canonical_none_witness :
    (scan "1136073600 +0000".toList).1.tm_mon = -1
      ∧ parse_date_values (fun _ => 0) "1136073600 +0000".toList = none
      ∧ parse_date (fun _ => 0) "1136073600 +0000".toList 64 = none :=
  parse_date_canonical_none (fun _ => 0) "1136073600".toList "0000".toList '+' 64
    (by decide) (by decide) (by decide)

/-- C4: when the year or the month still holds the unset value -1 at the end of
the scan, `parse_date` stores nothing, and so it does for the empty text; but
for "Jan 2021 10:30:00 +0100", which has no day of the month, the day still
holds -1 and `parse_date` stores "1609320600 +0100". -/
theorem parse_date_unset_day :
    (∀ (mktime : struct_tm → Int) (date : List Char) (maxlen : Nat),
        (scan date).1.tm_year = -1 ∨ (scan date).1.tm_mon = -1 →
        parse_date mktime date maxlen = none)
      ∧ (∀ (mktime : struct_tm → Int) (maxlen : Nat), parse_date mktime [] maxlen = none)
      ∧ (scan "Jan 2021 10:30:00 +0100".toList).1.tm_mday = -1
      ∧ parse_date (fun _ => 0) "Jan 2021 10:30:00 +0100".toList 64
          = some "1609320600 +0100".toList := by
  refine ⟨?_, ?_, by decide, by decide⟩
  · intro mktime date maxlen h
    rcases h with h | h
    · exact parse_date_none_of_failure mktime date maxlen (my_mktime_unset_year _ h)
    · exact parse_date_none_of_failure mktime date maxlen (my_mktime_unset_month _ h)
  · intro mktime maxlen
    exact parse_date_none_of_failure mktime [] maxlen (by decide)

/-- Witness for C4: the empty text leaves the month unset and nothing is stored. -/
theorem parse_date_unset_day_witness : parse_date (fun _ => 0) [] 64 = none :=
  parse_date_unset_day.1 (fun _ => 0) [] 64 (Or.inr (by decide))

theorem my_mktime_failure (tm : struct_tm)
    (h : tm.tm_year - 70 < 0 ∨ tm.tm_year - 70 > 129 ∨ tm.tm_mon < 0 ∨ tm.tm_mon > 11) :
    my_mktime tm = -1 := by
  unfold my_mktime
  simp only
  by_cases h1 : tm.tm_year - 70 < 0 ∨ tm.tm_year - 70 > 129
  · rw [if_pos h1]
  · have h2 : tm.tm_mon < 0 ∨ tm.tm_mon > 11 := by
      rcases h with h | h | h | h
      · exact absurd (Or.inl h) h1
      · exact absurd (Or.inr h) h1
      · exact Or.inl h
      · exact Or.inr h
    rw [if_neg h1, if_pos h2]

/-- The value `my_mktime` computes when both range checks pass and none of
the `int` products `days * 24 * 60`, `tm_hour * 60 * 60`, `tm_min * 60` leaves
the range of `int`. -/
theorem my_mktime_no_overflow (tm : struct_tm)
    (hy1 : 0 ≤ tm.tm_year - 70) (hy2 : tm.tm_year - 70 ≤ 129)
    (hmo1 : 0 ≤ tm.tm_mon) (hmo2 : tm.tm_mon ≤ 11)
    (hd1 : 1 ≤ tm.tm_mday) (hd2 : tm.tm_mday ≤ 1443857)
    (hh1 : 0 ≤ tm.tm_hour) (hh2 : tm.tm_hour ≤ 596523)
    (hm1 : 0 ≤ tm.tm_min) (hm2 : tm.tm_min ≤ 35791394)
    (hs1 : 0 ≤ tm.tm_sec) (hs2 : tm.tm_sec ≤ 2147483647) :
    0 ≤ my_mktime tm := by
  obtain ⟨m, hm⟩ : ∃ m : Nat, tm.tm_mon = (m : Int) := ⟨tm.tm_mon.toNat, by omega⟩
  have hm3 : m < 12 := by omega
  obtain ⟨b1, b2⟩ := mdays_bounds m hm3
  unfold my_mktime
  simp only [hm, Int.toNat_ofNat]
  generalize mdays.getD m 0 = md at b1 b2 ⊢
  rw [if_neg (by omega), if_neg (by omega)]
  split_ifs
  · rw [seconds_expr_in_range _ _ _ _ (by omega) (by omega) hh1 hh2 hm1 hm2 hs1 (by omega)]
    omega
  · rw [seconds_expr_in_range _ _ _ _ (by omega) (by omega) hh1 hh2 hm1 hm2 hs1 (by omega)]
    omega

/-- C5 (counterexample): the record of 1970, January, day 134217728, 23:59:59
has its year and month in range, a day of at least 1 and a non-negative time,
and `my_mktime` returns the failure value -1 for it: `days * 24 * 60` leaves
the range of `int`. -/
theorem my_mktime_failure_counterexample :
    my_mktime { tm_sec := 59, tm_min := 59, tm_hour := 23, tm_mday := 134217728, tm_mon := 0,
                tm_year := 70, tm_wday := 0, tm_yday := 0, tm_isdst := 0 } = -1 := by
  decide

/-- C5 (amended): `my_mktime` returns -1 whenever `tm_year - 70` is outside
0..129 or `tm_mon` is outside 0..11, and `parse_date` then stores nothing;
conversely, for every record with `tm_year - 70` in 0..129, `tm_mon` in 0..11,
`tm_mday` in 1..1443857, hour in 0..596523, minute in 0..35791394 and a
non-negative second, where no `int` product overflows, `my_mktime` returns a
non-negative value and so not -1. -/
theorem my_mktime_failure_value :
    (∀ tm : struct_tm,
        tm.tm_year - 70 < 0 ∨ tm.tm_year - 70 > 129 ∨ tm.tm_mon < 0 ∨ tm.tm_mon > 11 →
        my_mktime tm = -1)
      ∧ (∀ (mktime : struct_tm → Int) (date : List Char) (maxlen : Nat),
          my_mktime (scan date).1 = -1 → parse_date mktime date maxlen = none)
      ∧ (∀ tm : struct_tm,
          0 ≤ tm.tm_year - 70 → tm.tm_year - 70 ≤ 129 → 0 ≤ tm.tm_mon → tm.tm_mon ≤ 11 →
          1 ≤ tm.tm_mday → tm.tm_mday ≤ 1443857 → 0 ≤ tm.tm_hour → tm.tm_hour ≤ 596523 →
          0 ≤ tm.tm_min → tm.tm_min ≤ 35791394 → 0 ≤ tm.tm_sec → tm.tm_sec ≤ 2147483647 →
          0 ≤ my_mktime tm ∧ my_mktime tm ≠ -1) := by
  refine ⟨my_mktime_failure, parse_date_none_of_failure, ?_⟩
  intro tm a1 a2 a3 a4 a5 a6 a7 a8 a9 a10 a11 a12
  have h := my_mktime_no_overflow tm a1 a2 a3 a4 a5 a6 a7 a8 a9 a10 a11 a12
  exact ⟨h, by omega⟩

/-- Witness for C5 (amended): the year offset 200 fails, the text
"7 Jan 2270" stores nothing, and the record of 2021-01-07 10:30:00 gives a
non-negative value. -/
theorem my_mktime_failure_value_witness :
    my_mktime { tm_sec := 0, tm_min := 0, tm_hour := 0, tm_mday := 1, tm_mon := 0,
                tm_year := 270, tm_wday := 0, tm_yday := 0, tm_isdst := 0 } = -1
      ∧ parse_date (fun _ => 0) "7 Jan 2270".toList 64 = none
      ∧ (0 ≤ my_mktime ⟨0, 30, 10, 7, 0, 121, 0, 0, 0⟩
          ∧ my_mktime ⟨0, 30, 10, 7, 0, 121, 0, 0, 0⟩ ≠ -1) :=
  ⟨my_mktime_failure_value.1 _ (by decide),
   my_mktime_failure_value.2.1 (fun _ => 0) "7 Jan 2270".toList 64 (by decide),
   my_mktime_failure_value.2.2 ⟨0, 30, 10, 7, 0, 121, 0, 0, 0⟩ (by decide) (by decide)
     (by decide) (by decide) (by decide) (by decide) (by decide) (by decide) (by decide)
     (by decide) (by decide) (by decide)⟩

/-- C6: for "Thu, 07 Jan 2021 10:30:00 -0530" the resolved offset is -330
minutes and `parse_date` stores "1610035200 -05-30", not "1610035200 -0530":
the minutes are printed with their own sign. -/
theorem parse_date_negative_minutes :
    parse_date_values (fun _ => 0) "Thu, 07 Jan 2021 10:30:00 -0530".toList
        = some (1610035200, -330)
      ∧ parse_date (fun _ => 0) "Thu, 07 Jan 2021 10:30:00 -0530".toList 64
        = some "1610035200 -05-30".toList := by
  decide

theorem mdays_step (m1 m2 : Nat) (h : m1 < m2) (h2 : m2 < 12) :
    mdays.getD m1 0 + 28 ≤ mdays.getD m2 0 := by
  interval_cases m2 <;> interval_cases m1 <;> simp [mdays]

/-- The value of `my_mktime` on a record in the calendar range, with the year
and the month as natural numbers. -/
theorem my_mktime_calendar (tm : struct_tm) (h : in_calendar_range tm) :
    ∃ y m : Nat, y < 130 ∧ m < 12 ∧ tm.tm_year = (y : Int) + 70 ∧ tm.tm_mon = (m : Int)
      ∧ my_mktime tm =
        ((y : Int) * 365 + ((y : Int) + 1) / 4 + mdays.getD m 0 + tm.tm_mday
            - (if m < 2 ∨ (y + 2) % 4 ≠ 0 then 1 else 0)) * 86400
          + tm.tm_hour * 3600 + tm.tm_min * 60 + tm.tm_sec := by
  obtain ⟨a1, a2, a3, a4, a5, a6, a7, a8, a9, a10, a11, a12⟩ := h
  obtain ⟨y, hy⟩ : ∃ y : Nat, tm.tm_year = (y : Int) + 70 :=
    ⟨(tm.tm_year - 70).toNat, by omega⟩
  obtain ⟨m, hm⟩ : ∃ m : Nat, tm.tm_mon = (m : Int) := ⟨tm.tm_mon.toNat, by omega⟩
  have hy3 : y < 130 := by omega
  have hm3 : m < 12 := by omega
  exact ⟨y, m, hy3, hm3, hy, hm,
    my_mktime_in_range tm y m hy3 hm3 hy hm a5 a6 a7 (by omega) a9 (by omega) a11 (by omega)⟩

/-- C8: `my_mktime` is strictly increasing in each field separately: of two
records in the calendar range (year 1970..2099, month index 0..11, day 1..31,
hour 0..23, minute 0..59, second 0..60) that agree on all fields but one, the
one with the larger value in that field has the strictly larger result. -/
theorem my_mktime_strictly_increasing (a b : struct_tm)
    (ha : in_calendar_range a) (hb : in_calendar_range b) (h : one_field_larger a b) :
    my_mktime a < my_mktime b := by
  obtain ⟨ya, ma, hya, hma, eya, ema, ea⟩ := my_mktime_calendar a ha
  obtain ⟨yb, mb, hyb, hmb, eyb, emb, eb⟩ := my_mktime_calendar b hb
  obtain ⟨a1, a2, a3, a4, a5, a6, a7, a8, a9, a10, a11, a12⟩ := ha
  obtain ⟨b1, b2, b3, b4, b5, b6, b7, b8, b9, b10, b11, b12⟩ := hb
  rw [ea, eb]
  have hmono : ma < mb → mdays.getD ma 0 + 28 ≤ mdays.getD mb 0 :=
    fun hlt => mdays_step ma mb hlt hmb
  have hsame : ma = mb → mdays.getD ma 0 = mdays.getD mb 0 := fun e => by rw [e]
  generalize mdays.getD ma 0 = da at hmono hsame ⊢
  generalize mdays.getD mb 0 = db at hmono hsame ⊢
  rcases h with ⟨c1, c2, c3, c4, c5, c6⟩ | ⟨c1, c2, c3, c4, c5, c6⟩ | ⟨c1, c2, c3, c4, c5, c6⟩
      | ⟨c1, c2, c3, c4, c5, c6⟩ | ⟨c1, c2, c3, c4, c5, c6⟩ | ⟨c1, c2, c3, c4, c5, c6⟩
  · have hm : ma = mb := by omega
    have hd := hsame hm
    split_ifs <;> omega
  · have hm : ma < mb := by omega
    have hd := hmono hm
    have hy : ya = yb := by omega
    split_ifs <;> omega
  all_goals
    have hm : ma = mb := by omega
    have hd := hsame hm
    have hy : ya = yb := by omega
    subst hm hy
    split_ifs <;> omega

/-- Witness for C8: 2021-01-07 10:30:00 and the same time on 2021-01-08. -/
theorem my_mktime_strictly_increasing_witness :
    my_mktime ⟨0, 30, 10, 7, 0, 121, 0, 0, 0⟩ < my_mktime ⟨0, 30, 10, 8, 0, 121, 0, 0, 0⟩ :=
  my_mktime_strictly_increasing ⟨0, 30, 10, 7, 0, 121, 0, 0, 0⟩ ⟨0, 30, 10, 8, 0, 121, 0, 0, 0⟩
    (by decide) (by decide) (by decide)

/-- C10: for every text that begins `h:m:s`, three decimal numbers with h < 24,
m < 60 and s < 61, `match_digit` sets hour, minute and second to h, m and s,
leaves every other field of the record and the offset unchanged, and returns
the length of `h:m:s`. -/
theorem match_digit_clock_time (dh dm ds rest : List Char) (tm : struct_tm) (offset : Int)
    (hh : is_number dh) (hm : is_number dm) (hs : is_number ds)
    (hrest : isdigit (rest.headD NUL) = false)
    (h1 : decimal_value dh < 24) (h2 : decimal_value dm < 60) (h3 : decimal_value ds < 61) :
    match_digit (dh ++ ':' :: (dm ++ ':' :: (ds ++ rest))) tm offset
      = ((dh ++ ':' :: (dm ++ ':' :: ds)).length,
          { tm with tm_hour := (decimal_value dh : Int), tm_min := (decimal_value dm : Int),
                    tm_sec := (decimal_value ds : Int) },
          offset) := by
  rw [match_digit_clock dh dm ds rest tm offset hh hm hs hrest h1 h2 h3]
  refine Prod.ext ?_ rfl
  simp only [List.length_append, List.length_cons]
  omega

/-- Witness for C10: "23:59:59" gives hour 23, minute 59, second 59 and
consumes 8 characters. -/
theorem match_digit_clock_time_witness :
    match_digit "23:59:59".toList fresh_tm (-1)
      = (8, { fresh_tm with tm_hour := 23, tm_min := 59, tm_sec := 59 }, -1) :=
  match_digit_clock_time "23".toList "59".toList "59".toList [] fresh_tm (-1)
    (by decide) (by decide) (by decide) (by decide) (by decide) (by decide) (by decide)

/-! ## Lemmas on the stores through `offset` -/

theorem match_alpha_offset_of_not_stores (date : List Char) (tm : struct_tm) (offset : Int)
    (h : match_alpha_stores date = false) : (match_alpha date tm offset).2.2 = offset := by
  unfold match_alpha_stores at h
  unfold match_alpha
  cases h1 : first_match date month_names 0 with
  | some r => rfl
  | none =>
    cases h2 : first_match date weekday_names 0 with
    | some r => rfl
    | none =>
      cases h3 : first_match date (timezone_names.map Prod.fst) 0 with
      | some r => simp [h1, h2, h3] at h
      | none => rfl

theorem match_digit_offset (date : List Char) (tm : struct_tm) (offset : Int) :
    (match_digit date tm offset).2.2 = offset := by
  unfold match_digit
  simp only
  split_ifs <;> rfl

theorem scan_step_offset_of_store (date : List Char) (tm : struct_tm) (offset v : Int)
    (h : scan_step_store date tm offset = some v) : (scan_step date tm offset).2.2 = v := by
  unfold scan_step_store at h
  unfold scan_step
  simp only at h ⊢
  split_ifs at h ⊢ with h1 h2 h3 h4
  all_goals exact Option.some.inj h

theorem scan_step_offset_of_no_store (date : List Char) (tm : struct_tm) (offset : Int)
    (h : scan_step_store date tm offset = none) : (scan_step date tm offset).2.2 = offset := by
  unfold scan_step_store at h
  unfold scan_step
  simp only at h ⊢
  split_ifs at h ⊢ with h1 h2 h3 h4
  · exact match_alpha_offset_of_not_stores date tm offset (by simpa using h2)
  · exact match_digit_offset date tm offset
  · rfl

/-- Once a matcher has stored the current offset, the last store at the end of
the scan is the offset at the end of the scan. -/
theorem last_store_loop_some (fuel : Nat) : ∀ (date : List Char) (tm : struct_tm) (offset : Int),
    last_store_loop fuel date tm offset (some offset)
      = some (scan_loop fuel date tm offset).2 := by
  induction fuel with
  | zero => intro date tm offset; rfl
  | succ n ih =>
    intro date tm offset
    simp only [last_store_loop, scan_loop]
    split_ifs with hstop
    · rfl
    · cases hst : scan_step_store date tm offset with
      | some v =>
        simp only
        rw [← scan_step_offset_of_store date tm offset v hst]
        exact ih _ _ _
      | none =>
        simp only
        have he := scan_step_offset_of_no_store date tm offset hst
        have := ih (List.drop (scan_step date tm offset).1 date) (scan_step date tm offset).2.1
          (scan_step date tm offset).2.2
        rw [he] at this ⊢
        exact this

/-- The last store at the end of the scan, when there is one, is the offset at
the end of the scan. -/
theorem last_store_loop_none (fuel : Nat) : ∀ (date : List Char) (tm : struct_tm)
    (offset v : Int), last_store_loop fuel date tm offset none = some v →
    (scan_loop fuel date tm offset).2 = v := by
  induction fuel with
  | zero => intro date tm offset v h; exact absurd h (by simp [last_store_loop])
  | succ n ih =>
    intro date tm offset v h
    simp only [last_store_loop, scan_loop] at h ⊢
    split_ifs at h ⊢ with hstop
    cases hst : scan_step_store date tm offset with
    | some w =>
      rw [hst] at h
      simp only at h
      rw [← scan_step_offset_of_store date tm offset w hst, last_store_loop_some] at h
      exact Option.some.inj h
    | none =>
      rw [hst] at h
      exact ih _ _ _ v h

/-- C7 (counterexample): in "Thu, 07 Jan 2021 10:30:00 -0001" the matcher
`match_tz` stores the offset -1, the value that also means "unset", and the
output of `parse_date` follows the host function `mktime`. -/
theorem parse_date_offset_counterexample :
    last_store "Thu, 07 Jan 2021 10:30:00 -0001".toList = some (-1)
      ∧ parse_date (fun _ => 0) "Thu, 07 Jan 2021 10:30:00 -0001".toList 64
        ≠ parse_date (fun _ => 3600) "Thu, 07 Jan 2021 10:30:00 -0001".toList 64 := by
  decide

/-- C7 (amended): for every text in which some matcher stores the offset and
the last value stored is not -1, the offset `parse_date` uses for the
normalisation and the output is that last value, and the output is the same
for every host function `mktime`. -/
theorem parse_date_offset_precedence (date : List Char) (v : Int)
    (hlast : last_store date = some v) (hv : v ≠ -1) :
    (scan date).2 = v
      ∧ (∀ mktime : struct_tm → Int,
          parse_date_values mktime date
            = if my_mktime (scan date).1 = -1 then none
              else some (to_time_t (my_mktime (scan date).1 - to_int (v * 60)), v))
      ∧ (∀ (mktime1 mktime2 : struct_tm → Int) (maxlen : Nat),
          parse_date mktime1 date maxlen = parse_date mktime2 date maxlen) := by
  have hoff : (scan date).2 = v := last_store_loop_none _ _ _ _ v hlast
  have hval : ∀ mktime : struct_tm → Int,
      parse_date_values mktime date
        = if my_mktime (scan date).1 = -1 then none
          else some (to_time_t (my_mktime (scan date).1 - to_int (v * 60)), v) := by
    intro mktime
    unfold parse_date_values
    simp only [hoff, hv, if_false]
  refine ⟨hoff, hval, ?_⟩
  intro mktime1 mktime2 maxlen
  unfold parse_date
  rw [hval mktime1, hval mktime2]

/-- Witness for C7 (amended): "Thu, 07 Jan 2021 10:30:00 +0100", where
`match_tz` stores 60. -/
theorem parse_date_offset_precedence_witness :
    (scan "Thu, 07 Jan 2021 10:30:00 +0100".toList).2 = 60
      ∧ (∀ mktime : struct_tm → Int,
          parse_date_values mktime "Thu, 07 Jan 2021 10:30:00 +0100".toList
            = if my_mktime (scan "Thu, 07 Jan 2021 10:30:00 +0100".toList).1 = -1 then none
              else some (to_time_t
                (my_mktime (scan "Thu, 07 Jan 2021 10:30:00 +0100".toList).1
                  - to_int (60 * 60)), 60))
      ∧ (∀ (mktime1 mktime2 : struct_tm → Int) (maxlen : Nat),
          parse_date mktime1 "Thu, 07 Jan 2021 10:30:00 +0100".toList maxlen
            = parse_date mktime2 "Thu, 07 Jan 2021 10:30:00 +0100".toList maxlen) :=
  parse_date_offset_precedence "Thu, 07 Jan 2021 10:30:00 +0100".toList 60
    (by decide) (by decide)

/-! ## Lemmas on `match_string` -/

theorem toupper_of_islower (c : Char) (h : islower c = true) : isupper (toupper c) = true := by
  have hb : 97 ≤ c.toNat ∧ c.toNat ≤ 122 := by simpa [islower] using h
  obtain ⟨n, hn1, hn2, rfl⟩ : ∃ n, 97 ≤ n ∧ n ≤ 122 ∧ c = Char.ofNat n :=
    ⟨c.toNat, hb.1, hb.2, (Char.ofNat_toNat c).symm⟩
  interval_cases n <;> decide

theorem toupper_of_not_islower (c : Char) (h : islower c = false) : toupper c = c := by
  simp [toupper, h]

theorem isupper_ne_NUL (c : Char) (h : isupper c = true) : c ≠ NUL := by
  rintro rfl; exact absurd h (by decide)

theorem toupper_ne_NUL (c : Char) (h : c ≠ NUL) : toupper c ≠ NUL := by
  cases hl : islower c with
  | true => exact isupper_ne_NUL _ (toupper_of_islower c hl)
  | false => rw [toupper_of_not_islower c hl]; exact h

theorem isalpha_toupper (c : Char) (h : isalpha c = true) : isupper (toupper c) = true := by
  cases hl : islower c with
  | true => exact toupper_of_islower c hl
  | false =>
    rw [toupper_of_not_islower c hl]
    simpa [isalpha, hl] using h

theorem toupper_of_not_isalnum (c : Char) (h : isalnum c = false) : toupper c = c := by
  apply toupper_of_not_islower
  simp only [isalnum, isalpha, Bool.or_eq_false_iff] at h
  exact h.1.2

/-- A character that is not alphanumeric differs, also ignoring case, from a
letter and from the NUL that ends a name. -/
theorem toupper_ne_of_not_isalnum (d : Char) (str : List Char) (hd : d ≠ NUL)
    (hna : isalnum d = false) (hstr : ∀ c ∈ str, isalpha c = true) :
    toupper d ≠ toupper (str.headD NUL) := by
  rw [toupper_of_not_isalnum d hna]
  cases str with
  | nil => exact hd
  | cons s ss =>
    intro he
    have hs := isalpha_toupper s (hstr s (List.mem_cons_self _ _))
    simp only [List.headD_cons] at he
    rw [← he] at hs
    simp [isalnum, isalpha, hs] at hna

/-- What the loop of `match_string` returns: 0, or the count it started from
plus the length of a match. -/
theorem match_string_loop_sound (date : List Char) : ∀ (str : List Char) (i : Nat),
    match_string_loop date str i = 0
      ∨ ∃ n, match_string_loop date str i = i + n ∧ matches_name date n str := by
  induction date with
  | nil =>
    intro str i
    exact Or.inr ⟨0, rfl, Nat.zero_le _, fun j hj => absurd hj (Nat.not_lt_zero _), Or.inl rfl⟩
  | cons d ds ih =>
    intro str i
    have hzero : ∀ hcond : d = NUL ∨ isalnum d = false,
        matches_name (d :: ds) 0 str :=
      fun hcond => ⟨Nat.zero_le _, fun j hj => absurd hj (Nat.not_lt_zero _), hcond⟩
    have hrec : d ≠ NUL → toupper d = toupper (str.headD NUL) →
        match_string_loop ds str.tail (i + 1) = 0
          ∨ ∃ n, match_string_loop ds str.tail (i + 1) = i + n
              ∧ matches_name (d :: ds) n str := by
      intro hd he
      cases str with
      | nil => exact absurd he (toupper_ne_NUL d hd)
      | cons s ss =>
        rcases ih ss (i + 1) with h0 | ⟨n, hn, hle, hall, hend⟩
        · exact Or.inl h0
        · refine Or.inr ⟨n + 1, by simp only [List.tail_cons]; rw [hn]; omega, ?_, ?_, ?_⟩
          · simp only [List.length_cons]; omega
          · intro j hj
            cases j with
            | zero => simpa using he
            | succ k =>
              simp only [List.getD_cons_succ]
              exact hall k (by omega)
          · simpa only [List.getD_cons_succ] using hend
    simp only [match_string_loop]
    by_cases h1 : d = NUL
    · rw [if_pos h1]
      exact Or.inr ⟨0, rfl, hzero (Or.inl h1)⟩
    · rw [if_neg h1]
      by_cases h2 : d = str.headD NUL
      · rw [if_pos h2]
        exact hrec h1 (by rw [← h2])
      · rw [if_neg h2]
        by_cases h3 : toupper d = toupper (str.headD NUL)
        · rw [if_pos h3]
          exact hrec h1 h3
        · rw [if_neg h3]
          cases h4 : isalnum d with
          | true => simp
          | false =>
            simp only [Bool.not_false, if_true]
            exact Or.inr ⟨0, rfl, hzero (Or.inr h4)⟩

/-- A match of length `n` makes the loop of `match_string` return the count it
started from plus `n`. -/
theorem match_string_loop_complete (n : Nat) : ∀ (date str : List Char) (i : Nat),
    (∀ c ∈ str, isalpha c = true) → matches_name date n str →
    match_string_loop date str i = i + n := by
  induction n with
  | zero =>
    intro date str i hstr hm
    obtain ⟨_, _, hend⟩ := hm
    cases date with
    | nil => rfl
    | cons d ds =>
      simp only [List.getD_cons_zero] at hend
      simp only [match_string_loop]
      by_cases h1 : d = NUL
      · rw [if_pos h1]; rfl
      · rw [if_neg h1]
        have hna : isalnum d = false := by
          rcases hend with h | h
          · exact absurd h h1
          · exact h
        have hne := toupper_ne_of_not_isalnum d str h1 hna hstr
        have h2 : d ≠ str.headD NUL := by
          intro he; exact hne (by rw [← he])
        rw [if_neg h2, if_neg hne]
        simp [hna]
  | succ k ih =>
    intro date str i hstr hm
    obtain ⟨hle, hall, hend⟩ := hm
    cases str with
    | nil => simp at hle
    | cons s ss =>
      have hs : isalpha s = true := hstr s (List.mem_cons_self _ _)
      have h0 := hall 0 (Nat.succ_pos _)
      cases date with
      | nil =>
        simp only [List.getD_nil, List.getD_cons_zero] at h0
        exact absurd h0.symm (isupper_ne_NUL _ (isalpha_toupper s hs))
      | cons d ds =>
        simp only [List.getD_cons_zero] at h0
        have h1 : d ≠ NUL := by
          rintro rfl
          exact absurd h0.symm (isupper_ne_NUL _ (isalpha_toupper s hs))
        have hm2 : matches_name ds k ss := by
          refine ⟨by simp only [List.length_cons] at hle; omega, ?_, ?_⟩
          · intro j hj
            have := hall (j + 1) (by omega)
            simpa only [List.getD_cons_succ] using this
          · simpa only [List.getD_cons_succ] using hend
        have hrec := ih ds ss (i + 1) (fun c hc => hstr c (List.mem_cons_of_mem _ hc)) hm2
        simp only [match_string_loop, List.headD_cons, List.tail_cons]
        rw [if_neg h1]
        by_cases h2 : d = s
        · rw [if_pos h2, hrec]; omega
        · rw [if_neg h2, if_pos h0, hrec]; omega

/-- The function `match_string` returns `n ≥ 1` exactly for a match of length
`n` with the name. -/
theorem match_string_eq_iff (date str : List Char) (n : Nat) (hn : 1 ≤ n)
    (hstr : ∀ c ∈ str, isalpha c = true) :
    match_string date str = n ↔ matches_name date n str := by
  unfold match_string
  constructor
  · intro h
    rcases match_string_loop_sound date str 0 with h0 | ⟨k, hk, hm⟩
    · omega
    · have : k = n := by omega
      subst this
      exact hm
  · intro hm
    rw [match_string_loop_complete n date str 0 hstr hm]
    omega

/-! ## Lemmas on `match_alpha` -/

theorem first_match_some (date : List Char) : ∀ (names : List String) (i0 i m : Nat),
    first_match date names i0 = some (i, m) →
    ∃ j, j < names.length ∧ i = i0 + j ∧ m = match_string date (names.getD j "").toList
      ∧ 3 ≤ m ∧ ∀ j2, j2 < j → match_string date (names.getD j2 "").toList < 3 := by
  intro names
  induction names with
  | nil => intro i0 i m h; simp [first_match] at h
  | cons name rest ih =>
    intro i0 i m h
    simp only [first_match] at h
    by_cases hge : match_string date name.toList ≥ 3
    · rw [if_pos hge] at h
      have h1 := Option.some.inj h
      have hi : i0 = i := congrArg Prod.fst h1
      have hm : match_string date name.toList = m := congrArg Prod.snd h1
      refine ⟨0, by simp, by omega, by simpa using hm.symm, by omega, ?_⟩
      intro j2 hj2
      exact absurd hj2 (Nat.not_lt_zero _)
    · rw [if_neg hge] at h
      obtain ⟨j, hj, hi, hm, h3, hlt⟩ := ih (i0 + 1) i m h
      refine ⟨j + 1, by simp only [List.length_cons]; omega, by omega,
        by simpa only [List.getD_cons_succ] using hm, h3, ?_⟩
      intro j2 hj2
      cases j2 with
      | zero => simp only [List.getD_cons_zero]; omega
      | succ k => simp only [List.getD_cons_succ]; exact hlt k (by omega)

theorem first_match_none (date : List Char) : ∀ (names : List String) (i0 : Nat),
    first_match date names i0 = none →
    ∀ j, j < names.length → match_string date (names.getD j "").toList < 3 := by
  intro names
  induction names with
  | nil => intro i0 _ j hj; simp at hj
  | cons name rest ih =>
    intro i0 h j hj
    simp only [first_match] at h
    by_cases hge : match_string date name.toList ≥ 3
    · rw [if_pos hge] at h; exact absurd h (by simp)
    · rw [if_neg hge] at h
      cases j with
      | zero => simp only [List.getD_cons_zero]; omega
      | succ k =>
        simp only [List.getD_cons_succ]
        exact ih (i0 + 1) h k (by simp only [List.length_cons] at hj; omega)

theorem alpha_names_months : ∀ j, j < 12 → alpha_names.getD j "" = month_names.getD j "" := by
  decide

theorem alpha_names_weekdays :
    ∀ j, j < 7 → alpha_names.getD (12 + j) "" = weekday_names.getD j "" := by
  decide

theorem alpha_names_timezones :
    ∀ j, j < 42 → alpha_names.getD (19 + j) "" = (timezone_names.map Prod.fst).getD j "" := by
  decide

theorem alpha_names_letters :
    ∀ k, k < 61 → ∀ c ∈ (alpha_names.getD k "").toList, isalpha c = true := by
  decide

/-- A name that `match_string` matches in fewer than 3 characters has no match
of 3 or more characters with the text. -/
theorem no_match_of_lt (date : List Char) (k : Nat) (hk : k < 61)
    (hlt : match_string date (alpha_names.getD k "").toList < 3) (n : Nat) (hn : 3 ≤ n) :
    ¬ matches_name date n (alpha_names.getD k "").toList := by
  intro hm
  have := (match_string_eq_iff date _ n (by omega) (alpha_names_letters k hk)).mpr hm
  omega

/-- C9: for every text `match_alpha` either returns 0 and leaves the record
and the offset unchanged (and then no table name matches in 3 or more
characters), or returns `n ≥ 3` such that the first `n` characters of the text
equal, ignoring case, the first `n` characters of a table name, the character
of the text at position `n` is the end of the text or not alphanumeric, and
the field written is that of the first such name in the order months,
weekdays, timezones; "Ja" matches nothing and "Jan" returns 3 with month
index 0. -/
theorem match_alpha_spec (date : List Char) (tm : struct_tm) (offset : Int) :
    ((match_alpha date tm offset = (0, tm, offset)
        ∧ ∀ k, k < alpha_names.length → ∀ n, 3 ≤ n →
            ¬ matches_name date n (alpha_names.getD k "").toList)
      ∨ ∃ k n, k < alpha_names.length ∧ 3 ≤ n
          ∧ matches_name date n (alpha_names.getD k "").toList
          ∧ (∀ j, j < k → ∀ n2, 3 ≤ n2 →
              ¬ matches_name date n2 (alpha_names.getD j "").toList)
          ∧ match_alpha date tm offset = (n, alpha_write k tm offset))
      ∧ match_alpha "Ja".toList tm offset = (0, tm, offset)
      ∧ match_alpha "Jan".toList tm offset = (3, { tm with tm_mon := 0 }, offset) := by
  refine ⟨?_, rfl, rfl⟩
  have hlen : alpha_names.length = 61 := by decide
  have hmatch : ∀ k, k < 61 → 3 ≤ match_string date (alpha_names.getD k "").toList →
      matches_name date (match_string date (alpha_names.getD k "").toList)
        (alpha_names.getD k "").toList := fun k hk h3 =>
    (match_string_eq_iff date _ _ (by omega) (alpha_names_letters k hk)).mp rfl
  cases h1 : first_match date month_names 0 with
  | some r =>
    obtain ⟨i, m⟩ := r
    obtain ⟨j, hj, hi, hm, h3, hlt⟩ := first_match_some date month_names 0 i m h1
    have hj12 : j < 12 := hj
    have hij : i = j := by omega
    subst hij
    right
    refine ⟨i, m, by omega, h3, ?_, ?_, ?_⟩
    · rw [hm, ← alpha_names_months i hj12]
      exact hmatch i (by omega) (by rw [alpha_names_months i hj12, ← hm]; exact h3)
    · intro j2 hj2 n2 hn2
      refine no_match_of_lt date j2 (by omega) ?_ n2 hn2
      rw [alpha_names_months j2 (by omega)]
      exact hlt j2 hj2
    · simp only [match_alpha, h1, alpha_write, hj12, if_true]
  | none =>
    have hmon : ∀ j, j < 12 → match_string date (month_names.getD j "").toList < 3 :=
      first_match_none date month_names 0 h1
    cases h2 : first_match date weekday_names 0 with
    | some r =>
      obtain ⟨i, m⟩ := r
      obtain ⟨j, hj, hi, hm, h3, hlt⟩ := first_match_some date weekday_names 0 i m h2
      have hj7 : j < 7 := hj
      have hij : i = j := by omega
      subst hij
      right
      refine ⟨12 + i, m, by omega, h3, ?_, ?_, ?_⟩
      · rw [hm, ← alpha_names_weekdays i hj7]
        exact hmatch (12 + i) (by omega) (by rw [alpha_names_weekdays i hj7, ← hm]; exact h3)
      · intro j2 hj2 n2 hn2
        refine no_match_of_lt date j2 (by omega) ?_ n2 hn2
        by_cases hlow : j2 < 12
        · rw [alpha_names_months j2 hlow]
          exact hmon j2 hlow
        · obtain ⟨q, rfl⟩ : ∃ q, j2 = 12 + q := ⟨j2 - 12, by omega⟩
          rw [alpha_names_weekdays q (by omega)]
          exact hlt q (by omega)
      · have e1 : ¬ (12 + i < 12) := by omega
        have e2 : 12 + i < 19 := by omega
        simp only [match_alpha, h1, h2, alpha_write, e1, e2, if_true, if_false,
          Nat.add_sub_cancel_left]
    | none =>
      have hwd : ∀ j, j < 7 → match_string date (weekday_names.getD j "").toList < 3 :=
        first_match_none date weekday_names 0 h2
      cases h3 : first_match date (timezone_names.map Prod.fst) 0 with
      | some r =>
        obtain ⟨i, m⟩ := r
        obtain ⟨j, hj, hi, hm, h3m, hlt⟩ :=
          first_match_some date (timezone_names.map Prod.fst) 0 i m h3
        have hj42 : j < 42 := hj
        have hij : i = j := by omega
        subst hij
        right
        refine ⟨19 + i, m, by omega, h3m, ?_, ?_, ?_⟩
        · rw [hm, ← alpha_names_timezones i hj42]
          exact hmatch (19 + i) (by omega)
            (by rw [alpha_names_timezones i hj42, ← hm]; exact h3m)
        · intro j2 hj2 n2 hn2
          refine no_match_of_lt date j2 (by omega) ?_ n2 hn2
          by_cases hlow : j2 < 12
          · rw [alpha_names_months j2 hlow]
            exact hmon j2 hlow
          · by_cases hmid : j2 < 19
            · obtain ⟨q, rfl⟩ : ∃ q, j2 = 12 + q := ⟨j2 - 12, by omega⟩
              rw [alpha_names_weekdays q (by omega)]
              exact hwd q (by omega)
            · obtain ⟨q, rfl⟩ : ∃ q, j2 = 19 + q := ⟨j2 - 19, by omega⟩
              rw [alpha_names_timezones q (by omega)]
              exact hlt q (by omega)
        · have e1 : ¬ (19 + i < 12) := by omega
          have e2 : ¬ (19 + i < 19) := by omega
          simp only [match_alpha, h1, h2, h3, alpha_write, e1, e2, if_false,
            Nat.add_sub_cancel_left]
      | none =>
        have htz : ∀ j, j < 42 →
            match_string date ((timezone_names.map Prod.fst).getD j "").toList < 3 :=
          first_match_none date (timezone_names.map Prod.fst) 0 h3
        left
        refine ⟨by simp only [match_alpha, h1, h2, h3], ?_⟩
        intro k hk n hn
        rw [hlen] at hk
        refine no_match_of_lt date k hk ?_ n hn
        by_cases hlow : k < 12
        · rw [alpha_names_months k hlow]
          exact hmon k hlow
        · by_cases hmid : k < 19
          · obtain ⟨q, rfl⟩ : ∃ q, k = 12 + q := ⟨k - 12, by omega⟩
            rw [alpha_names_weekdays q (by omega)]
            exact hwd q (by omega)
          · obtain ⟨q, rfl⟩ : ∃ q, k = 19 + q := ⟨k - 19, by omega⟩
            rw [alpha_names_timezones q (by omega)]
            exact htz q (by omega)

/-! ## Lemmas on the delimited dates of `match_digit` -/

/-- A number followed by `-` or `/` takes `match_digit` to the labels
`case '-':` and `case '/':` of the `switch`. -/
theorem match_digit_at_delim (ds rest : List Char) (d : Char) (tm : struct_tm) (offset : Int)
    (hds : is_number ds) (hd : d = '-' ∨ d = '/') :
    match_digit (ds ++ d :: rest) tm offset
      = ((ds ++ d :: rest).length
            - (match_digit_delim d (min (decimal_value ds) ULONG_MAX) (d :: rest) tm).2.length,
          (match_digit_delim d (min (decimal_value ds) ULONG_MAX) (d :: rest) tm).1,
          offset) := by
  have hnd : isdigit ((d :: rest).headD NUL) = false := by
    rcases hd with rfl | rfl <;> rfl
  have hc : d ≠ ':' := by rcases hd with rfl | rfl <;> decide
  unfold match_digit
  simp only [strtoul_number ds (d :: rest) hds hnd, List.headD_cons, hc, false_and, and_false,
    if_false, hd, if_true]

/-- The labels `case '-':` and `case '/':` on `a<d>b` with `a` and `b` in
1..31 and not both above 12: the month and the day are written, and a year
follows when the same delimiter and a digit come next. -/
theorem match_digit_delim_pair (db rest : List Char) (d : Char) (a : Nat) (tm : struct_tm)
    (hdb : is_number db) (hrest : isdigit (rest.headD NUL) = false)
    (ha1 : 1 ≤ a) (ha2 : a ≤ 31) (hb1 : 1 ≤ decimal_value db) (hb2 : decimal_value db ≤ 31)
    (hab : a ≤ 12 ∨ decimal_value db ≤ 12) :
    match_digit_delim d a (d :: (db ++ rest)) tm
      = if rest.headD NUL = d ∧ isdigit (rest.getD 1 NUL) then
          ({ tm with
              tm_mon := ((if a > 12 then decimal_value db else a : Nat) : Int) - 1,
              tm_mday := ((if a > 12 then a else decimal_value db : Nat) : Int),
              tm_year := to_int ((if (strtoul rest).1 > 1900 then (strtoul rest).1 - 1900
                                  else (strtoul rest).1 : Nat) : Int) },
            (strtoul rest).2)
        else
          ({ tm with
              tm_mon := ((if a > 12 then decimal_value db else a : Nat) : Int) - 1,
              tm_mday := ((if a > 12 then a else decimal_value db : Nat) : Int) },
            rest) := by
  have e2 : strtoul (db ++ rest) = (decimal_value db, rest) :=
    strtoul_small _ _ hdb hrest (by unfold ULONG_MAX; omega)
  have d2 := is_number_head db rest hdb
  have c1 : a ≠ 0 ∧ a < 32 := ⟨by omega, by omega⟩
  have c2 : ¬ (decimal_value db = 0 ∨ decimal_value db > 31) := by omega
  have c3 : ¬ (a > 12 ∧ decimal_value db > 12) := by omega
  have hmon1 : 1 ≤ (if a > 12 then decimal_value db else a) := by split_ifs <;> omega
  have hmon2 : (if a > 12 then decimal_value db else a) ≤ 12 := by split_ifs <;> omega
  have hday1 : 1 ≤ (if a > 12 then a else decimal_value db) := by split_ifs <;> omega
  have hday2 : (if a > 12 then a else decimal_value db) ≤ 31 := by split_ifs <;> omega
  have i1 : to_int (((if a > 12 then decimal_value db else a : Nat) : Int) - 1)
      = ((if a > 12 then decimal_value db else a : Nat) : Int) - 1 :=
    to_int_of_range _ (by omega) (by omega)
  have i2 : to_int ((if a > 12 then a else decimal_value db : Nat) : Int)
      = ((if a > 12 then a else decimal_value db : Nat) : Int) :=
    to_int_of_range _ (by omega) (by omega)
  unfold match_digit_delim
  simp only [List.getD_cons_succ, getD_zero_headD, d2, c1, and_self, if_true,
    List.drop_succ_cons, List.drop_zero, e2, c2, c3, if_false, i1, i2]
  rw [if_pos ⟨c1.1, trivial⟩]

/-- C11: for every text that begins `a<d>b` with the delimiter `-` or `/` and
`a`, `b` decimal numbers in 1..31 (a delimiter is no clock-time shape):
when a ≤ 12 `match_digit` writes the month index a-1 and the day b, and when
a > 12 and b ≤ 12 it writes the month index b-1 and the day a. -/
theorem match_digit_day_month (da db rest : List Char) (d : Char) (tm : struct_tm)
    (offset : Int) (hda : is_number da) (hdb : is_number db) (hd : d = '-' ∨ d = '/')
    (hrest : isdigit (rest.headD NUL) = false)
    (ha1 : 1 ≤ decimal_value da) (ha2 : decimal_value da ≤ 31)
    (hb1 : 1 ≤ decimal_value db) (hb2 : decimal_value db ≤ 31) :
    (decimal_value da ≤ 12 →
        (match_digit (da ++ d :: (db ++ rest)) tm offset).2.1.tm_mon
            = (decimal_value da : Int) - 1
          ∧ (match_digit (da ++ d :: (db ++ rest)) tm offset).2.1.tm_mday
            = (decimal_value db : Int))
      ∧ (12 < decimal_value da → decimal_value db ≤ 12 →
        (match_digit (da ++ d :: (db ++ rest)) tm offset).2.1.tm_mon
            = (decimal_value db : Int) - 1
          ∧ (match_digit (da ++ d :: (db ++ rest)) tm offset).2.1.tm_mday
            = (decimal_value da : Int)) := by
  have hmin : min (decimal_value da) ULONG_MAX = decimal_value da :=
    Nat.min_eq_left (by unfold ULONG_MAX; omega)
  rw [match_digit_at_delim da (db ++ rest) d tm offset hda hd, hmin]
  constructor
  · intro hle
    have hng : ¬ decimal_value da > 12 := by omega
    rw [match_digit_delim_pair db rest d _ tm hdb hrest ha1 ha2 hb1 hb2 (Or.inl hle)]
    split_ifs <;> exact ⟨rfl, rfl⟩
  · intro hgt hle
    have hg : decimal_value da > 12 := hgt
    rw [match_digit_delim_pair db rest d _ tm hdb hrest ha1 ha2 hb1 hb2 (Or.inr hle)]
    split_ifs <;> exact ⟨rfl, rfl⟩

/-- Witness for C11: "13/1/2023" gives the month index 0 and the day 13, and
"25-12-2023" gives the month index 11 and the day 25. -/
theorem match_digit_day_month_witness :
    ((match_digit "13/1/2023".toList fresh_tm (-1)).2.1.tm_mon = 0
        ∧ (match_digit "13/1/2023".toList fresh_tm (-1)).2.1.tm_mday = 13)
      ∧ ((match_digit "25-12-2023".toList fresh_tm (-1)).2.1.tm_mon = 11
        ∧ (match_digit "25-12-2023".toList fresh_tm (-1)).2.1.tm_mday = 25) :=
  ⟨(match_digit_day_month "13".toList "1".toList "/2023".toList '/' fresh_tm (-1)
      (by decide) (by decide) (by decide) (by decide) (by decide) (by decide) (by decide)
      (by decide)).2 (by decide) (by decide),
   (match_digit_day_month "25".toList "12".toList "-2023".toList '-' fresh_tm (-1)
      (by decide) (by decide) (by decide) (by decide) (by decide) (by decide) (by decide)
      (by decide)).2 (by decide) (by decide)⟩

/-- C12: for "25-12-2023" `match_digit` calls `strtoul` at the second
delimiter, not after it: the text "-2023" is read as a negated number and the
year stored is -3923, not 123; for "13/1/2023" `strtoul` reads no number at
"/2023", the year stored is 0 and only the 4 characters of "13/1" are
consumed. -/
theorem match_digit_year_at_delimiter :
    match_digit "25-12-2023".toList fresh_tm (-1)
        = (10, { fresh_tm with tm_mon := 11, tm_mday := 25, tm_year := -3923 }, -1)
      ∧ match_digit "13/1/2023".toList fresh_tm (-1)
        = (4, { fresh_tm with tm_mon := 0, tm_mday := 13, tm_year := 0 }, -1) := by
  decide

theorem match_digit_default_small (n : Nat) (tm : struct_tm) (hn : n ≤ 2147485547) :
    match_digit_default n tm = magnitude_heuristics n tm := by
  unfold match_digit_default magnitude_heuristics
  by_cases h1 : n > 0 ∧ n < 32
  · have h1b : 0 < n ∧ n < 32 := h1
    rw [if_pos h1, if_pos h1b, to_int_of_range _ (by omega) (by omega)]
  · have h1b : ¬ (0 < n ∧ n < 32) := h1
    rw [if_neg h1, if_neg h1b]
    by_cases h2 : n > 1900
    · rw [if_pos h2, if_pos h2, to_int_of_range _ (by omega) (by omega)]
    · rw [if_neg h2, if_neg h2]
      by_cases h3 : n > 70
      · have h3b : 70 < n ∧ n ≤ 1900 := ⟨h3, by omega⟩
        rw [if_pos h3, if_pos h3b, to_int_of_range _ (by omega) (by omega)]
      · have h3b : ¬ (70 < n ∧ n ≤ 1900) := fun h => h3 h.1
        rw [if_neg h3, if_neg h3b]

/-- C13 (counterexample): for "7-Jan-2021" the number 7 is followed by `-` and
a letter, and `match_digit` writes nothing: the day stays unset; and for the
number 4294969196 the year stored is 0, not the number minus 1900. -/
theorem match_digit_magnitude_counterexample :
    (match_digit "7-Jan-2021".toList fresh_tm (-1) = (1, fresh_tm, -1)
        ∧ match_digit "7-Jan-2021".toList fresh_tm (-1)
            ≠ (1, magnitude_heuristics 7 fresh_tm, -1))
      ∧ (match_digit "4294969196".toList fresh_tm (-1)
            = (10, { fresh_tm with tm_year := 0 }, -1)
        ∧ match_digit "4294969196".toList fresh_tm (-1)
            ≠ (10, magnitude_heuristics 4294969196 fresh_tm, -1)) := by
  decide

/-- C13 (amended): for every text that begins with a decimal number n of at
most 2147485547 (so that n - 1900 fits an `int`) that is not a clock-time
shape: when the next character is neither `-` nor `/`, `match_digit` applies
the magnitude heuristics and returns the number of digits of n; when the next
character is `-` or `/` and no digit follows it, `match_digit` writes nothing
and returns the number of digits of n. -/
theorem match_digit_magnitude (ds rest : List Char) (tm : struct_tm) (offset : Int)
    (hds : is_number ds) (hrest : isdigit (rest.headD NUL) = false)
    (hn : decimal_value ds ≤ 2147485547)
    (hclock : ¬ (decimal_value ds < 24 ∧ rest.headD NUL = ':'
                  ∧ isdigit (rest.getD 1 NUL) = true)) :
    (rest.headD NUL ≠ '-' → rest.headD NUL ≠ '/' →
        match_digit (ds ++ rest) tm offset
          = (ds.length, magnitude_heuristics (decimal_value ds) tm, offset))
      ∧ (rest.headD NUL = '-' ∨ rest.headD NUL = '/' → isdigit (rest.getD 1 NUL) = false →
        match_digit (ds ++ rest) tm offset = (ds.length, tm, offset)) := by
  have e : strtoul (ds ++ rest) = (decimal_value ds, rest) :=
    strtoul_small _ _ hds hrest (by unfold ULONG_MAX; omega)
  constructor
  · intro h1 h2
    unfold match_digit
    simp only [e, hclock, if_false, h1, h2, or_self, List.length_append, Nat.add_sub_cancel,
      match_digit_default_small _ tm hn]
  · intro h1 h2
    unfold match_digit
    simp only [e, hclock, if_false, h1, if_true, match_digit_delim, h2, and_false,
      List.length_append, Nat.add_sub_cancel]
    simp

/-- Witness for C13 (amended): "07 Jan" sets the day 7 and "7-Jan-2021" sets
nothing. -/
theorem match_digit_magnitude_witness :
    match_digit "07 Jan".toList fresh_tm (-1) = (2, { fresh_tm with tm_mday := 7 }, -1)
      ∧ match_digit "7-Jan-2021".toList fresh_tm (-1) = (1, fresh_tm, -1) :=
  ⟨(match_digit_magnitude "07".toList " Jan".toList fresh_tm (-1) (by decide) (by decide)
      (by decide) (by decide)).1 (by decide) (by decide),
   (match_digit_magnitude "7".toList "-Jan-2021".toList fresh_tm (-1) (by decide) (by decide)
      (by decide) (by decide)).2 (by decide) (by decide)⟩

/-- C14 (counterexample): for "15-40" `match_digit` writes nothing and consumes
all 5 characters; it does not set the day 15 and consume 2. -/
theorem match_digit_rejected_counterexample :
    match_digit "15-40".toList fresh_tm (-1) = (5, fresh_tm, -1)
      ∧ match_digit "15-40".toList fresh_tm (-1)
          ≠ (2, magnitude_heuristics 15 fresh_tm, -1) := by
  decide

/-- C14 (amended): when a text begins `a<d>b` with the delimiter `-` or `/`
followed by a digit, `match_digit` leaves the `switch` without the magnitude
heuristics: for `a` in 1..31 and `b` not in 1..31 it writes nothing and
consumes the whole of `a<d>b`, and for `a` not in 1..31 it writes nothing and
consumes the digits of `a`. -/
theorem match_digit_rejected (da db rest : List Char) (d : Char) (tm : struct_tm)
    (offset : Int) (hda : is_number da) (hdb : is_number db) (hd : d = '-' ∨ d = '/')
    (hrest : isdigit (rest.headD NUL) = false) :
    (1 ≤ decimal_value da → decimal_value da ≤ 31 →
        decimal_value db = 0 ∨ 31 < decimal_value db →
        match_digit (da ++ d :: (db ++ rest)) tm offset
          = ((da ++ d :: db).length, tm, offset))
      ∧ (decimal_value da = 0 ∨ 31 < decimal_value da →
        match_digit (da ++ d :: (db ++ rest)) tm offset = (da.length, tm, offset)) := by
  have e2 := strtoul_number db rest hdb hrest
  have d2 := is_number_head db rest hdb
  rw [match_digit_at_delim da (db ++ rest) d tm offset hda hd]
  constructor
  · intro ha1 ha2 hb
    have hmin : min (decimal_value da) ULONG_MAX = decimal_value da :=
      Nat.min_eq_left (by unfold ULONG_MAX; omega)
    have c1 : decimal_value da ≠ 0 ∧ decimal_value da < 32 := ⟨by omega, by omega⟩
    have c2 : min (decimal_value db) ULONG_MAX = 0 ∨ min (decimal_value db) ULONG_MAX > 31 := by
      unfold ULONG_MAX
      omega
    unfold match_digit_delim
    simp only [hmin, List.getD_cons_succ, getD_zero_headD, d2, List.drop_succ_cons,
      List.drop_zero, e2, c2, if_true]
    rw [if_pos ⟨c1.1, c1.2, trivial⟩]
    refine Prod.ext ?_ rfl
    simp only [List.length_append, List.length_cons]
    omega
  · intro ha
    have c1 : ¬ (min (decimal_value da) ULONG_MAX ≠ 0 ∧ min (decimal_value da) ULONG_MAX < 32
        ∧ isdigit ((d :: (db ++ rest)).getD 1 NUL) = true) := by
      unfold ULONG_MAX
      omega
    unfold match_digit_delim
    rw [if_neg c1]
    refine Prod.ext ?_ rfl
    simp only [List.length_append, List.length_cons]
    omega

/-- Witness for C14 (amended): "15-40" is consumed whole and "2021-01-07" gives
up the 4 digits of 2021, both without writing. -/
theorem match_digit_rejected_witness :
    match_digit "15-40".toList fresh_tm (-1) = (5, fresh_tm, -1)
      ∧ match_digit "2021-01-07".toList fresh_tm (-1) = (4, fresh_tm, -1) :=
  ⟨(match_digit_rejected "15".toList "40".toList [] '-' fresh_tm (-1) (by decide) (by decide)
      (by decide) (by decide)).1 (by decide) (by decide) (by decide),
   (match_digit_rejected "2021".toList "01".toList "-07".toList '-' fresh_tm (-1) (by decide)
      (by decide) (by decide) (by decide)).2 (by decide)⟩

/-- C15: for every text that begins with `+` or `-` and a decimal number v
below 2^31, `match_tz` writes the offset (v / 100) * 60 + (v mod 100) minutes,
negated when the sign is `-`, and returns 1 plus the number of digits. -/
theorem match_tz_offset (sign : Char) (ds rest : List Char)
    (_hsign : sign = '+' ∨ sign = '-') (hds : is_number ds)
    (hrest : isdigit (rest.headD NUL) = false) (hv : decimal_value ds < 2147483648) :
    match_tz (sign :: (ds ++ rest))
      = (1 + ds.length,
          if sign = '-' then
            -((decimal_value ds / 100 * 60 + decimal_value ds % 100 : Nat) : Int)
          else ((decimal_value ds / 100 * 60 + decimal_value ds % 100 : Nat) : Int)) := by
  rw [match_tz_small sign ds rest hds hrest hv]
  rfl

/-- Witness for C15: "+0100" gives 60 and "-0530" gives -330, each consuming 5
characters. -/
theorem match_tz_offset_witness :
    match_tz "+0100".toList = (5, 60) ∧ match_tz "-0530".toList = (5, -330) :=
  ⟨match_tz_offset '+' "0100".toList [] (by decide) (by decide) (by decide) (by decide),
   match_tz_offset '-' "0530".toList [] (by decide) (by decide) (by decide) (by decide)⟩

/-! ## Bounds on `match_string` -/

theorem strlen_le_length (s : List Char) : strlen s ≤ s.length := by
  induction s with
  | nil => exact Nat.le_refl _
  | cons c cs ih =>
    simp only [strlen, List.length_cons]
    split_ifs <;> omega

/-- When a character of the text that is not NUL agrees, possibly ignoring
case, with the character at the head of `str`, then `str` is not at its end. -/
theorem head_agrees (d : Char) (str : List Char) (hd : d ≠ NUL)
    (h : d = str.headD NUL ∨ toupper d = toupper (str.headD NUL)) :
    ∃ s ss, str = s :: ss ∧ s ≠ NUL := by
  cases str with
  | nil =>
    rcases h with h | h
    · exact absurd h hd
    · exact absurd h (toupper_ne_NUL d hd)
  | cons s ss =>
    refine ⟨s, ss, rfl, ?_⟩
    rintro rfl
    rcases h with h | h
    · exact absurd h hd
    · exact absurd h (toupper_ne_NUL d hd)

theorem match_string_loop_le (date : List Char) : ∀ (str : List Char) (i : Nat),
    match_string_loop date str i ≤ i + strlen date
      ∧ match_string_loop date str i ≤ i + strlen str := by
  induction date with
  | nil => intro str i; exact ⟨Nat.le_add_right _ _, Nat.le_add_right _ _⟩
  | cons d ds ih =>
    intro str i
    have hrec : d ≠ NUL → (d = str.headD NUL ∨ toupper d = toupper (str.headD NUL)) →
        match_string_loop ds str.tail (i + 1) ≤ i + strlen (d :: ds)
          ∧ match_string_loop ds str.tail (i + 1) ≤ i + strlen str := by
      intro hd h
      obtain ⟨s, ss, rfl, hs⟩ := head_agrees d str hd h
      obtain ⟨h1, h2⟩ := ih ss (i + 1)
      simp only [List.tail_cons, strlen, if_neg hd, if_neg hs]
      constructor <;> omega
    simp only [match_string_loop]
    by_cases h1 : d = NUL
    · rw [if_pos h1]; exact ⟨Nat.le_add_right _ _, Nat.le_add_right _ _⟩
    · rw [if_neg h1]
      by_cases h2 : d = str.headD NUL
      · rw [if_pos h2]; exact hrec h1 (Or.inl h2)
      · rw [if_neg h2]
        by_cases h3 : toupper d = toupper (str.headD NUL)
        · rw [if_pos h3]; exact hrec h1 (Or.inr h3)
        · rw [if_neg h3]
          split_ifs
          · exact ⟨Nat.le_add_right _ _, Nat.le_add_right _ _⟩
          · exact ⟨Nat.zero_le _, Nat.zero_le _⟩

theorem match_string_reads_le (date : List Char) : ∀ (str : List Char) (i j : Nat),
    j ∈ match_string_reads date str i → j ≤ i + strlen str := by
  induction date with
  | nil => intro str i j hj; simp [match_string_reads] at hj
  | cons d ds ih =>
    intro str i j hj
    have hrec : d ≠ NUL → (d = str.headD NUL ∨ toupper d = toupper (str.headD NUL)) →
        j ∈ match_string_reads ds str.tail (i + 1) → j ≤ i + strlen str := by
      intro hd h hmem
      obtain ⟨s, ss, rfl, hs⟩ := head_agrees d str hd h
      have := ih ss (i + 1) j hmem
      simp only [strlen, if_neg hs]
      omega
    simp only [match_string_reads] at hj
    by_cases h1 : d = NUL
    · rw [if_pos h1] at hj; simp at hj
    · rw [if_neg h1] at hj
      rcases List.mem_cons.mp hj with rfl | hj2
      · omega
      · by_cases h2 : d = str.headD NUL
        · rw [if_pos h2] at hj2; exact hrec h1 (Or.inl h2) hj2
        · rw [if_neg h2] at hj2
          by_cases h3 : toupper d = toupper (str.headD NUL)
          · rw [if_pos h3] at hj2; exact hrec h1 (Or.inr h3) hj2
          · rw [if_neg h3] at hj2; simp at hj2

theorem strlen_of_letters (name : List Char) (h : ∀ c ∈ name, isalpha c = true) :
    strlen name = name.length := by
  induction name with
  | nil => rfl
  | cons c cs ih =>
    have hc : c ≠ NUL := by
      rintro rfl
      exact absurd (h NUL (List.mem_cons_self _ _)) (by decide)
    simp only [strlen, if_neg hc, List.length_cons,
      ih (fun x hx => h x (List.mem_cons_of_mem _ hx))]
    omega

/-- C19: for every text and every name, `match_string` returns a count that is
at most the length of the text and at most the length of the name, and every
index at which it reads the name is at most the length of the name (the
terminator at the latest); the length of a name of letters is the number of
its letters. -/
theorem match_string_bounded (date name : List Char) :
    match_string date name ≤ strlen date
      ∧ match_string date name ≤ strlen name
      ∧ (∀ j, j ∈ match_string_reads date name 0 → j ≤ strlen name)
      ∧ ((∀ c ∈ name, isalpha c = true) → strlen name = name.length)
      ∧ match_string_reads "Jan, 07".toList "January".toList 0 = [0, 1, 2, 3] := by
  obtain ⟨h1, h2⟩ := match_string_loop_le date name 0
  refine ⟨by unfold match_string; omega, by unfold match_string; omega, ?_,
    strlen_of_letters name, by decide⟩
  intro j hj
  have := match_string_reads_le date name 0 j hj
  omega

/-! ## The entry "NT" of `timezone_names` -/

theorem match_string_le_length (date str : List Char) :
    match_string date str ≤ str.length := by
  have h := (match_string_loop_le date str 0).2
  have h2 := strlen_le_length str
  unfold match_string
  omega

theorem timezone_offsets_not_NT :
    ∀ j, j < 42 → j ≠ 1 → 60 * (timezone_names.getD j ("", 0)).2 ≠ -660 := by
  decide

/-- C20: a timezone entry whose name has fewer than three characters is never
selected: the name of every entry the third loop of `match_alpha` selects has
at least 3 characters; `match_string` against "NT" returns at most 2, the
loop never selects the entry "NT" (index 1, -11 hours), and `match_alpha`
never stores its offset of -660 minutes. -/
theorem match_alpha_never_NT (date : List Char) (tm : struct_tm) (offset : Int) :
    timezone_names.getD 1 ("", 0) = ("NT", -11)
      ∧ match_string date "NT".toList ≤ 2
      ∧ (∀ j m, first_match date (timezone_names.map Prod.fst) 0 = some (j, m) →
          3 ≤ ((timezone_names.map Prod.fst).getD j "").length ∧ j ≠ 1)
      ∧ (offset ≠ -660 → (match_alpha date tm offset).2.2 ≠ -660) := by
  have hsel : ∀ j m, first_match date (timezone_names.map Prod.fst) 0 = some (j, m) →
      j < 42 ∧ 3 ≤ ((timezone_names.map Prod.fst).getD j "").length ∧ j ≠ 1 := by
    intro j m h
    obtain ⟨k, hk, hj, hm, h3, _⟩ := first_match_some date _ 0 j m h
    have hjk : j = k := by omega
    subst hjk
    have hle := match_string_le_length date ((timezone_names.map Prod.fst).getD j "").toList
    have hlen : 3 ≤ ((timezone_names.map Prod.fst).getD j "").length := by
      have : ((timezone_names.map Prod.fst).getD j "").toList.length
          = ((timezone_names.map Prod.fst).getD j "").length := rfl
      omega
    refine ⟨hk, hlen, ?_⟩
    rintro rfl
    exact absurd hlen (by decide)
  refine ⟨rfl, match_string_le_length date "NT".toList, fun j m h => (hsel j m h).2, ?_⟩
  intro hoff
  unfold match_alpha
  cases h1 : first_match date month_names 0 with
  | some r => exact hoff
  | none =>
    cases h2 : first_match date weekday_names 0 with
    | some r => exact hoff
    | none =>
      cases h3 : first_match date (timezone_names.map Prod.fst) 0 with
      | some r =>
        obtain ⟨j, m⟩ := r
        obtain ⟨hj, _, hne⟩ := hsel j m h3
        exact timezone_offsets_not_NT j hj hne
      | none => exact hoff

/-! ## The range invariant of the calendar record -/

theorem in_range_set_mon (tm : struct_tm) (v : Int) (h : record_in_range tm)
    (hv : 0 ≤ v ∧ v ≤ 11) : record_in_range { tm with tm_mon := v } :=
  ⟨Or.inr hv, h.2.1, h.2.2.1, h.2.2.2.1, h.2.2.2.2⟩

theorem in_range_set_mday (tm : struct_tm) (v : Int) (h : record_in_range tm)
    (hv : 1 ≤ v ∧ v ≤ 31) : record_in_range { tm with tm_mday := v } :=
  ⟨h.1, Or.inr hv, h.2.2.1, h.2.2.2.1, h.2.2.2.2⟩

theorem in_range_set_hour (tm : struct_tm) (v : Int) (h : record_in_range tm)
    (hv : 0 ≤ v ∧ v ≤ 23) : record_in_range { tm with tm_hour := v } :=
  ⟨h.1, h.2.1, hv, h.2.2.2.1, h.2.2.2.2⟩

theorem in_range_set_min (tm : struct_tm) (v : Int) (h : record_in_range tm)
    (hv : 0 ≤ v ∧ v ≤ 59) : record_in_range { tm with tm_min := v } :=
  ⟨h.1, h.2.1, h.2.2.1, hv, h.2.2.2.2⟩

theorem in_range_set_sec (tm : struct_tm) (v : Int) (h : record_in_range tm)
    (hv : 0 ≤ v ∧ v ≤ 60) : record_in_range { tm with tm_sec := v } :=
  ⟨h.1, h.2.1, h.2.2.1, h.2.2.2.1, hv⟩

theorem in_range_set_year (tm : struct_tm) (v : Int) (h : record_in_range tm) :
    record_in_range { tm with tm_year := v } :=
  ⟨h.1, h.2.1, h.2.2.1, h.2.2.2.1, h.2.2.2.2⟩

theorem in_range_set_wday (tm : struct_tm) (v : Int) (h : record_in_range tm) :
    record_in_range { tm with tm_wday := v } :=
  ⟨h.1, h.2.1, h.2.2.1, h.2.2.2.1, h.2.2.2.2⟩

theorem to_int_below (n b : Nat) (h : n < b) (hb : b ≤ 2147483648) :
    0 ≤ to_int (n : Int) ∧ to_int (n : Int) ≤ (b : Int) - 1 := by
  rw [to_int_of_range _ (by omega) (by omega)]
  omega

theorem match_alpha_in_range (date : List Char) (tm : struct_tm) (offset : Int)
    (h : record_in_range tm) : record_in_range (match_alpha date tm offset).2.1 := by
  unfold match_alpha
  cases h1 : first_match date month_names 0 with
  | some r =>
    obtain ⟨i, m⟩ := r
    obtain ⟨k, hk, hi, _⟩ := first_match_some date month_names 0 i m h1
    have hk12 : k < 12 := hk
    exact in_range_set_mon tm _ h ⟨by omega, by omega⟩
  | none =>
    cases h2 : first_match date weekday_names 0 with
    | some r => exact in_range_set_wday tm _ h
    | none =>
      cases h3 : first_match date (timezone_names.map Prod.fst) 0 with
      | some r => exact h
      | none => exact h

theorem match_digit_time_in_range (e : List Char) (tm : struct_tm)
    (h : record_in_range tm) : record_in_range (match_digit_time e tm).1 := by
  unfold match_digit_time
  simp only
  generalize strtoul (e.drop 1) = r2
  generalize strtoul (r2.2.drop 1) = r3
  by_cases h1 : r2.1 < 60
  · have hmin := in_range_set_min tm _ h (to_int_below r2.1 60 h1 (by decide))
    rw [if_pos h1]
    by_cases h2 : r2.2.headD NUL = ':' ∧ isdigit (r2.2.getD 1 NUL) = true
    · rw [if_pos h2]
      by_cases h3 : r3.1 < 61
      · rw [if_pos h3]
        have hsec := in_range_set_sec _ (to_int (r3.1 : Int)) hmin
          (to_int_below r3.1 61 h3 (by decide))
        exact hsec
      · rw [if_neg h3]; exact hmin
    · rw [if_neg h2]; exact hmin
  · rw [if_neg h1]; exact h

theorem match_digit_default_in_range (num : Nat) (tm : struct_tm)
    (h : record_in_range tm) : record_in_range (match_digit_default num tm) := by
  unfold match_digit_default
  by_cases h1 : num > 0 ∧ num < 32
  · rw [if_pos h1]
    have hb := to_int_below num 32 h1.2 (by decide)
    have hv : to_int (num : Int) = num := to_int_of_range _ (by omega) (by omega)
    exact in_range_set_mday tm _ h ⟨by rw [hv]; omega, hb.2⟩
  · rw [if_neg h1]
    by_cases h2 : num > 1900
    · rw [if_pos h2]; exact in_range_set_year tm _ h
    · rw [if_neg h2]
      by_cases h3 : num > 70
      · rw [if_pos h3]; exact in_range_set_year tm _ h
      · rw [if_neg h3]; exact h

theorem delim_month_day (a b : Nat) (ha : a ≠ 0 ∧ a < 32) (hb : ¬ (b = 0 ∨ b > 31))
    (hab : ¬ (a > 12 ∧ b > 12)) :
    (0 ≤ to_int (((if a > 12 then b else a : Nat) : Int) - 1)
        ∧ to_int (((if a > 12 then b else a : Nat) : Int) - 1) ≤ 11)
      ∧ (1 ≤ to_int ((if a > 12 then a else b : Nat) : Int)
        ∧ to_int ((if a > 12 then a else b : Nat) : Int) ≤ 31) := by
  have hmon1 : 1 ≤ (if a > 12 then b else a) := by split_ifs <;> omega
  have hmon2 : (if a > 12 then b else a) ≤ 12 := by split_ifs <;> omega
  have hday1 : 1 ≤ (if a > 12 then a else b) := by split_ifs <;> omega
  have hday2 : (if a > 12 then a else b) ≤ 31 := by split_ifs <;> omega
  rw [to_int_of_range _ (by omega) (by omega), to_int_of_range _ (by omega) (by omega)]
  omega

theorem match_digit_delim_in_range (c : Char) (num : Nat) (e : List Char) (tm : struct_tm)
    (h : record_in_range tm) : record_in_range (match_digit_delim c num e tm).1 := by
  unfold match_digit_delim
  simp only
  generalize strtoul (e.drop 1) = r2
  generalize strtoul r2.2 = r3
  by_cases h1 : num ≠ 0 ∧ num < 32 ∧ isdigit (e.getD 1 NUL) = true
  · rw [if_pos h1]
    by_cases h2 : r2.1 = 0 ∨ r2.1 > 31
    · rw [if_pos h2]; exact h
    · rw [if_neg h2]
      by_cases h3 : num > 12 ∧ r2.1 > 12
      · rw [if_pos h3]; exact h
      · rw [if_neg h3]
        obtain ⟨hm, hd⟩ := delim_month_day num r2.1 ⟨h1.1, h1.2.1⟩ h2 h3
        have hmd := in_range_set_mday _ _ (in_range_set_mon tm _ h hm) hd
        by_cases h4 : r2.2.headD NUL = c ∧ isdigit (r2.2.getD 1 NUL) = true
        · rw [if_pos h4]
          have hyear := in_range_set_year _
            (to_int ((if r3.1 > 1900 then r3.1 - 1900 else r3.1 : Nat) : Int)) hmd
          exact hyear
        · rw [if_neg h4]; exact hmd
  · rw [if_neg h1]; exact h

theorem match_digit_in_range (date : List Char) (tm : struct_tm) (offset : Int)
    (h : record_in_range tm) : record_in_range (match_digit date tm offset).2.1 := by
  unfold match_digit
  simp only
  generalize strtoul date = r
  by_cases h1 : r.1 < 24 ∧ r.2.headD NUL = ':' ∧ isdigit (r.2.getD 1 NUL) = true
  · rw [if_pos h1]
    exact match_digit_time_in_range _ _
      (in_range_set_hour tm _ h (to_int_below r.1 24 h1.1 (by decide)))
  · rw [if_neg h1]
    by_cases h2 : r.2.headD NUL = '-' ∨ r.2.headD NUL = '/'
    · rw [if_pos h2]; exact match_digit_delim_in_range _ _ _ _ h
    · rw [if_neg h2]; exact match_digit_default_in_range _ _ h

theorem run_call_in_range (c : matcher_call) (st : struct_tm × Int)
    (h : record_in_range st.1) : record_in_range (run_call c st).1 := by
  cases c with
  | alpha date => exact match_alpha_in_range date st.1 st.2 h
  | digit date => exact match_digit_in_range date st.1 st.2 h
  | tz date => exact h

theorem scan_step_in_range (date : List Char) (tm : struct_tm) (offset : Int)
    (h : record_in_range tm) : record_in_range (scan_step date tm offset).2.1 := by
  unfold scan_step
  simp only
  split_ifs
  · exact match_alpha_in_range date tm offset h
  · exact match_digit_in_range date tm offset h
  · exact h
  · exact h

theorem scan_loop_in_range (fuel : Nat) : ∀ (date : List Char) (tm : struct_tm) (offset : Int),
    record_in_range tm → record_in_range (scan_loop fuel date tm offset).1 := by
  induction fuel with
  | zero => intro date tm offset h; exact h
  | succ n ih =>
    intro date tm offset h
    simp only [scan_loop]
    split_ifs
    · exact h
    · exact ih _ _ _ (scan_step_in_range date tm offset h)

/-- C18: starting from the fresh record of `parse_date`, after every sequence
of calls of `match_alpha`, `match_digit` and `match_tz` on any texts, the
month is -1 or in 0..11, the day is -1 or in 1..31, the hour is in 0..23, the
minute in 0..59 and the second in 0..60; so it is after the scan of
`parse_date`. -/
theorem record_range_invariant (calls : List matcher_call) (offset : Int)
    (date : List Char) :
    record_in_range (run_calls calls (fresh_tm, offset)).1
      ∧ record_in_range (scan date).1 := by
  have hfresh : record_in_range fresh_tm := by decide
  constructor
  · have hgen : ∀ (cs : List matcher_call) (st : struct_tm × Int),
        record_in_range st.1 → record_in_range (run_calls cs st).1 := by
      intro cs
      induction cs with
      | nil => intro st h; exact h
      | cons c cs ih =>
        intro st h
        exact ih (run_call c st) (run_call_in_range c st h)
    exact hgen calls (fresh_tm, offset) hfresh
  · exact scan_loop_in_range _ _ _ _ hfresh

/-! ## Pointers stay in the text -/

theorem strlen_drop (s : List Char) : ∀ k, k ≤ strlen s → strlen (s.drop k) = strlen s - k := by
  induction s with
  | nil => intro k _; simp [strlen]
  | cons c cs ih =>
    intro k hk
    cases k with
    | zero => rfl
    | succ n =>
      by_cases hc : c = NUL
      · simp only [strlen, if_pos hc] at hk
        omega
      · simp only [strlen, if_neg hc] at hk ⊢
        rw [List.drop_succ_cons, ih n (by omega)]
        omega

theorem points_into_refl (s : List Char) : points_into s s := ⟨0, Nat.zero_le _, rfl⟩

theorem points_into_trans (s e f : List Char) (h1 : points_into s e) (h2 : points_into e f) :
    points_into s f := by
  obtain ⟨k, hk, rfl⟩ := h1
  obtain ⟨j, hj, rfl⟩ := h2
  rw [strlen_drop s k hk] at hj
  exact ⟨k + j, by omega, by rw [List.drop_drop, Nat.add_comm]⟩

theorem points_into_next (s : List Char) (h : s.headD NUL ≠ NUL) :
    points_into s (s.drop 1) := by
  cases s with
  | nil => exact absurd rfl h
  | cons c cs =>
    have hc : c ≠ NUL := h
    exact ⟨1, by simp only [strlen, if_neg hc]; omega, rfl⟩

/-- The pointer difference `e - s` of a pointer into the string is at most
`strlen s`. -/
theorem points_into_count (s e : List Char) (h : points_into s e) :
    s.length - e.length ≤ strlen s := by
  obtain ⟨k, hk, rfl⟩ := h
  have := strlen_le_length s
  rw [List.length_drop]
  omega

theorem isspace_ne_NUL (c : Char) (h : isspace c = true) : c ≠ NUL := by
  rintro rfl; exact absurd h (by decide)

theorem skip_space_points (s : List Char) : points_into s (skip_space s) := by
  induction s with
  | nil => exact points_into_refl _
  | cons c cs ih =>
    simp only [skip_space]
    split_ifs with h
    · exact points_into_trans _ _ _
        (points_into_next (c :: cs) (isspace_ne_NUL c h)) ih
    · exact points_into_refl _

theorem scan_digits_points (s : List Char) : ∀ acc, points_into s (scan_digits s acc).2 := by
  induction s with
  | nil => intro acc; exact points_into_refl _
  | cons c cs ih =>
    intro acc
    simp only [scan_digits]
    split_ifs with h
    · exact points_into_trans _ _ _
        (points_into_next (c :: cs) (isdigit_ne_NUL c h)) (ih _)
    · exact points_into_refl _

theorem strtoul_points (s : List Char) : points_into s (strtoul s).2 := by
  have h1 := skip_space_points s
  have h2 : points_into (skip_space s)
      (if (skip_space s).headD NUL = '-' ∨ (skip_space s).headD NUL = '+'
        then (skip_space s).tail else skip_space s) := by
    split_ifs with hs
    · have hn : (skip_space s).headD NUL ≠ NUL := by
        rcases hs with hs | hs <;> rw [hs] <;> decide
      have := points_into_next _ hn
      rwa [List.drop_one] at this
    · exact points_into_refl _
  have h3 := scan_digits_points
    (if (skip_space s).headD NUL = '-' ∨ (skip_space s).headD NUL = '+'
      then (skip_space s).tail else skip_space s) 0
  have h4 := points_into_trans _ _ _ (points_into_trans _ _ _ h1 h2) h3
  unfold strtoul
  simp only
  generalize (if (skip_space s).headD NUL = '-' ∨ (skip_space s).headD NUL = '+'
      then (skip_space s).tail else skip_space s) = s1 at h4 ⊢
  generalize scan_digits s1 0 = r at h4 ⊢
  by_cases hd : isdigit (s1.headD NUL) = true
  · rw [if_pos hd]
    by_cases hbig : r.1 > ULONG_MAX
    · rw [if_pos hbig]; exact h4
    · rw [if_neg hbig]
      split_ifs
      · exact h4
      · exact h4
  · rw [if_neg hd]; exact points_into_refl _

theorem match_digit_time_points (e : List Char) (tm : struct_tm) (he : e.headD NUL ≠ NUL) :
    points_into e (match_digit_time e tm).2 := by
  have p1 := points_into_next e he
  have p2 := points_into_trans _ _ _ p1 (strtoul_points (e.drop 1))
  unfold match_digit_time
  simp only
  generalize strtoul (e.drop 1) = r2 at p2 ⊢
  have p3 : r2.2.headD NUL = ':' → points_into e (strtoul (r2.2.drop 1)).2 := by
    intro hc
    have hn : r2.2.headD NUL ≠ NUL := by rw [hc]; decide
    exact points_into_trans _ _ _ p2
      (points_into_trans _ _ _ (points_into_next _ hn) (strtoul_points _))
  generalize strtoul (r2.2.drop 1) = r3 at p3 ⊢
  by_cases h1 : r2.1 < 60
  · rw [if_pos h1]
    by_cases h2 : r2.2.headD NUL = ':' ∧ isdigit (r2.2.getD 1 NUL) = true
    · rw [if_pos h2]
      by_cases h3 : r3.1 < 61
      · rw [if_pos h3]; exact p3 h2.1
      · rw [if_neg h3]; exact p3 h2.1
    · rw [if_neg h2]; exact p2
  · rw [if_neg h1]; exact p2

theorem match_digit_delim_points (c : Char) (num : Nat) (e : List Char) (tm : struct_tm)
    (he : e.headD NUL ≠ NUL) : points_into e (match_digit_delim c num e tm).2 := by
  have p1 := points_into_next e he
  have p2 := points_into_trans _ _ _ p1 (strtoul_points (e.drop 1))
  unfold match_digit_delim
  simp only
  generalize strtoul (e.drop 1) = r2 at p2 ⊢
  have p3 := points_into_trans _ _ _ p2 (strtoul_points r2.2)
  generalize strtoul r2.2 = r3 at p3 ⊢
  by_cases h1 : num ≠ 0 ∧ num < 32 ∧ isdigit (e.getD 1 NUL) = true
  · rw [if_pos h1]
    by_cases h2 : r2.1 = 0 ∨ r2.1 > 31
    · rw [if_pos h2]; exact p2
    · rw [if_neg h2]
      by_cases h3 : num > 12 ∧ r2.1 > 12
      · rw [if_pos h3]; exact p2
      · rw [if_neg h3]
        by_cases h4 : r2.2.headD NUL = c ∧ isdigit (r2.2.getD 1 NUL) = true
        · rw [if_pos h4]; exact p3
        · rw [if_neg h4]; exact p2
  · rw [if_neg h1]; exact points_into_refl _

theorem match_alpha_le (date : List Char) (tm : struct_tm) (offset : Int) :
    (match_alpha date tm offset).1 ≤ strlen date := by
  have hm : ∀ (names : List String) (i m : Nat), first_match date names 0 = some (i, m) →
      m ≤ strlen date := by
    intro names i m h
    obtain ⟨j, _, _, hmj, _⟩ := first_match_some date names 0 i m h
    rw [hmj]
    exact (match_string_loop_le date _ 0).1.trans (by omega)
  unfold match_alpha
  cases h1 : first_match date month_names 0 with
  | some r => exact hm _ r.1 r.2 h1
  | none =>
    cases h2 : first_match date weekday_names 0 with
    | some r => exact hm _ r.1 r.2 h2
    | none =>
      cases h3 : first_match date (timezone_names.map Prod.fst) 0 with
      | some r => exact hm _ r.1 r.2 h3
      | none => exact Nat.zero_le _

theorem match_digit_le (date : List Char) (tm : struct_tm) (offset : Int) :
    (match_digit date tm offset).1 ≤ strlen date := by
  have p := strtoul_points date
  unfold match_digit
  simp only
  generalize strtoul date = r at p ⊢
  by_cases h1 : r.1 < 24 ∧ r.2.headD NUL = ':' ∧ isdigit (r.2.getD 1 NUL) = true
  · rw [if_pos h1]
    have hn : r.2.headD NUL ≠ NUL := by rw [h1.2.1]; decide
    exact points_into_count _ _
      (points_into_trans _ _ _ p (match_digit_time_points r.2 _ hn))
  · rw [if_neg h1]
    by_cases h2 : r.2.headD NUL = '-' ∨ r.2.headD NUL = '/'
    · rw [if_pos h2]
      have hn : r.2.headD NUL ≠ NUL := by
        rcases h2 with h2 | h2 <;> rw [h2] <;> decide
      exact points_into_count _ _
        (points_into_trans _ _ _ p (match_digit_delim_points _ _ r.2 tm hn))
    · rw [if_neg h2]
      exact points_into_count _ _ p

theorem match_tz_le (date : List Char) (h : date.headD NUL ≠ NUL) :
    (match_tz date).1 ≤ strlen date := by
  have p := points_into_trans _ _ _ (points_into_next date h) (strtoul_points (date.drop 1))
  unfold match_tz
  simp only
  exact points_into_count _ _ p

theorem scan_step_le (date : List Char) (tm : struct_tm) (offset : Int)
    (h : date.headD NUL ≠ NUL) : (scan_step date tm offset).1 ≤ strlen date := by
  have h1 : 1 ≤ strlen date := by
    cases date with
    | nil => exact absurd rfl h
    | cons c cs =>
      have hc : c ≠ NUL := h
      simp only [strlen, if_neg hc]; omega
  have ha := match_alpha_le date tm offset
  have hd := match_digit_le date tm offset
  have ht := match_tz_le date h
  unfold scan_step
  simp only
  generalize match_alpha date tm offset = ra at ha ⊢
  generalize match_digit date tm offset = rd at hd ⊢
  generalize match_tz date = rt at ht ⊢
  split_ifs <;> omega

theorem strlen_eq_zero (date : List Char) (h : strlen date = 0) : date.headD NUL = NUL := by
  cases date with
  | nil => rfl
  | cons c cs =>
    by_cases hc : c = NUL
    · exact hc
    · simp only [strlen, if_neg hc] at h
      omega

theorem scan_halts_of_fuel (fuel : Nat) : ∀ (date : List Char) (tm : struct_tm) (offset : Int),
    strlen date ≤ fuel → scan_halts fuel date tm offset = true := by
  induction fuel with
  | zero =>
    intro date tm offset h
    have h0 := strlen_eq_zero date (by omega)
    simp only [scan_halts, h0, true_or, decide_True]
  | succ n ih =>
    intro date tm offset h
    simp only [scan_halts]
    by_cases hstop : date.headD NUL = NUL ∨ date.headD NUL = Char.ofNat 10
    · rw [if_pos hstop]
    · rw [if_neg hstop]
      have hn : date.headD NUL ≠ NUL := fun e => hstop (Or.inl e)
      have h1 := scan_step_pos date tm offset
      have h2 := scan_step_le date tm offset hn
      apply ih
      rw [strlen_drop date _ h2]
      omega

/-- C16: the value each matcher returns is between 0 and the number of
characters that remain in the text; every pass of the scan loop of
`parse_date` advances the position by at least one character and not beyond
the end of the text; and the loop reaches its `break` after at most as many
passes as the text has characters. -/
theorem scan_progress (date : List Char) (tm : struct_tm) (offset : Int) :
    (match_alpha date tm offset).1 ≤ strlen date
      ∧ (match_digit date tm offset).1 ≤ strlen date
      ∧ (date.headD NUL ≠ NUL → (match_tz date).1 ≤ strlen date)
      ∧ (date.headD NUL ≠ NUL →
          1 ≤ (scan_step date tm offset).1
            ∧ (scan_step date tm offset).1 ≤ strlen date
            ∧ strlen (date.drop (scan_step date tm offset).1)
                = strlen date - (scan_step date tm offset).1)
      ∧ scan_halts (strlen date) date tm offset = true
      ∧ scan_halts date.length date tm offset = true := by
  refine ⟨match_alpha_le date tm offset, match_digit_le date tm offset, match_tz_le date, ?_,
    scan_halts_of_fuel _ date tm offset (Nat.le_refl _),
    scan_halts_of_fuel _ date tm offset (strlen_le_length date)⟩
  intro h
  have h2 := scan_step_le date tm offset h
  exact ⟨scan_step_pos date tm offset, h2, strlen_drop date _ h2⟩

/-! ## Nothing is read beyond a newline -/

theorem headD_append_of_ne_nil (e x : List Char) (h : e ≠ []) :
    (e ++ x).headD NUL = e.headD NUL := by
  cases e with
  | nil => exact absurd rfl h
  | cons c cs => rfl

theorem drop_one_append_of_ne_nil (e x : List Char) (h : e ≠ []) :
    (e ++ x).drop 1 = e.drop 1 ++ x := by
  cases e with
  | nil => exact absurd rfl h
  | cons c cs => rfl

theorem ne_nil_of_headD (e : List Char) (k : Char) (h : e.headD NUL = k) (hk : k ≠ NUL) :
    e ≠ [] := by
  rintro rfl
  exact hk h.symm

/-- The character at the head is a given character, other than NUL and
newline, with or without a newline and more text appended. -/
theorem headD_newline_eq (e t : List Char) (k : Char) (hk : k ≠ NUL)
    (hk2 : k ≠ Char.ofNat 10) :
    (e ++ Char.ofNat 10 :: t).headD NUL = k ↔ e.headD NUL = k := by
  cases e with
  | nil =>
    constructor
    · intro h; exact absurd h.symm hk2
    · intro h; exact absurd h.symm hk
  | cons c cs => exact Iff.rfl

theorem isdigit_headD_newline (e t : List Char) :
    isdigit ((e ++ Char.ofNat 10 :: t).headD NUL) = isdigit (e.headD NUL) := by
  cases e with
  | nil => rfl
  | cons c cs => rfl

theorem isdigit_getD_one_newline (e t : List Char) (h : e ≠ []) :
    isdigit ((e ++ Char.ofNat 10 :: t).getD 1 NUL) = isdigit (e.getD 1 NUL) := by
  cases e with
  | nil => exact absurd rfl h
  | cons c cs =>
    simp only [List.cons_append, List.getD_cons_succ, getD_zero_headD]
    exact isdigit_headD_newline cs t

/-- The test "this character, then a digit" gives the same with or without a
newline and more text appended. -/
theorem lookahead_newline (e t : List Char) (k : Char) (hk : k ≠ NUL)
    (hk2 : k ≠ Char.ofNat 10) :
    ((e ++ Char.ofNat 10 :: t).headD NUL = k
        ∧ isdigit ((e ++ Char.ofNat 10 :: t).getD 1 NUL) = true)
      ↔ (e.headD NUL = k ∧ isdigit (e.getD 1 NUL) = true) := by
  constructor
  · rintro ⟨h1, h2⟩
    have h1b := (headD_newline_eq e t k hk hk2).mp h1
    have hne := ne_nil_of_headD e k h1b hk
    exact ⟨h1b, by rw [← isdigit_getD_one_newline e t hne]; exact h2⟩
  · rintro ⟨h1, h2⟩
    have hne := ne_nil_of_headD e k h1 hk
    exact ⟨(headD_newline_eq e t k hk hk2).mpr h1,
      by rw [isdigit_getD_one_newline e t hne]; exact h2⟩

theorem match_string_loop_newline (s t : List Char) : ∀ (str : List Char) (i : Nat),
    (∀ c ∈ str, isalpha c = true) →
    match_string_loop (s ++ Char.ofNat 10 :: t) str i = match_string_loop s str i := by
  induction s with
  | nil =>
    intro str i hstr
    have hne := toupper_ne_of_not_isalnum (Char.ofNat 10) str (by decide) (by decide) hstr
    have h2 : Char.ofNat 10 ≠ str.headD NUL := fun e => hne (by rw [← e])
    have h1 : Char.ofNat 10 ≠ NUL := by decide
    have h4 : isalnum (Char.ofNat 10) = false := by decide
    simp only [List.nil_append, match_string_loop, if_neg h1, if_neg h2, if_neg hne, h4,
      Bool.not_false, if_true]
  | cons d ds ih =>
    intro str i hstr
    have htail : ∀ c ∈ str.tail, isalpha c = true :=
      fun c hc => hstr c (List.mem_of_mem_tail hc)
    have hrec := ih str.tail (i + 1) htail
    simp only [List.cons_append, match_string_loop, List.append_eq, hrec]

theorem first_match_newline (s t : List Char) : ∀ (names : List String) (i0 : Nat),
    (∀ name ∈ names, ∀ c ∈ name.toList, isalpha c = true) →
    first_match (s ++ Char.ofNat 10 :: t) names i0 = first_match s names i0 := by
  intro names
  induction names with
  | nil => intro i0 _; rfl
  | cons name rest ih =>
    intro i0 h
    have h1 : match_string (s ++ Char.ofNat 10 :: t) name.toList = match_string s name.toList :=
      match_string_loop_newline s t name.toList 0 (h name (List.mem_cons_self _ _))
    simp only [first_match, h1, ih (i0 + 1) (fun n hn => h n (List.mem_cons_of_mem _ hn))]

theorem match_alpha_newline (s t : List Char) (tm : struct_tm) (offset : Int) :
    match_alpha (s ++ Char.ofNat 10 :: t) tm offset = match_alpha s tm offset := by
  have h1 : ∀ name ∈ month_names, ∀ c ∈ name.toList, isalpha c = true := by decide
  have h2 : ∀ name ∈ weekday_names, ∀ c ∈ name.toList, isalpha c = true := by decide
  have h3 : ∀ name ∈ timezone_names.map Prod.fst, ∀ c ∈ name.toList, isalpha c = true := by
    decide
  unfold match_alpha
  rw [first_match_newline s t _ 0 h1, first_match_newline s t _ 0 h2,
    first_match_newline s t _ 0 h3]

theorem scan_digits_newline (s t : List Char) : ∀ acc,
    scan_digits (s ++ Char.ofNat 10 :: t) acc
      = ((scan_digits s acc).1, (scan_digits s acc).2 ++ Char.ofNat 10 :: t) := by
  induction s with
  | nil =>
    intro acc
    have h : isdigit (Char.ofNat 10) = false := by decide
    simp only [List.nil_append, scan_digits, h]
    rfl
  | cons c cs ih =>
    intro acc
    simp only [List.cons_append, scan_digits]
    split_ifs with h
    · exact ih _
    · rfl

/-- The function `strtoul` at a character that is not white space reads the
same number, and stops at the same place, with or without a newline and more
text appended. -/
theorem strtoul_newline (s t : List Char) (hne : s ≠ [])
    (hsp : isspace (s.headD NUL) = false) :
    strtoul (s ++ Char.ofNat 10 :: t)
      = ((strtoul s).1, (strtoul s).2 ++ Char.ofNat 10 :: t) := by
  cases s with
  | nil => exact absurd rfl hne
  | cons c cs =>
    have hc : isspace c = false := hsp
    have hsk1 : skip_space (c :: (cs ++ Char.ofNat 10 :: t)) = c :: (cs ++ Char.ofNat 10 :: t) := by
      simp only [skip_space, hc]
      rfl
    have hsk2 : skip_space (c :: cs) = c :: cs := by
      simp only [skip_space, hc]
      rfl
    unfold strtoul
    simp only [List.cons_append, hsk1, hsk2, List.headD_cons, List.tail_cons]
    by_cases hsign : c = '-' ∨ c = '+'
    · simp only [hsign, if_true, isdigit_headD_newline, scan_digits_newline]
      generalize scan_digits cs 0 = r
      by_cases hd : isdigit (cs.headD NUL) = true
      · simp only [hd, if_true]
        split_ifs <;> rfl
      · simp only [hd]
        rfl
    · simp only [hsign, if_false, List.headD_cons]
      have hsd := scan_digits_newline (c :: cs) t 0
      rw [List.cons_append] at hsd
      rw [hsd]
      generalize scan_digits (c :: cs) 0 = r
      by_cases hd : isdigit c = true
      · simp only [hd, if_true]
        split_ifs <;> rfl
      · simp only [hd]
        rfl

theorem isdigit_head_strtoul_ok (e : List Char) (h : isdigit (e.headD NUL) = true) :
    e ≠ [] ∧ isspace (e.headD NUL) = false := by
  refine ⟨?_, isdigit_not_isspace _ h⟩
  rintro rfl
  exact absurd h (by decide)

theorem getD_one_eq_headD_drop (e : List Char) : e.getD 1 NUL = (e.drop 1).headD NUL := by
  cases e with
  | nil => rfl
  | cons c cs => simp only [List.getD_cons_succ, getD_zero_headD, List.drop_succ_cons,
      List.drop_zero]

/-- The function `strtoul` called one character further, where a digit stands. -/
theorem strtoul_next_newline (e t : List Char) (hne : e ≠ [])
    (hd : isdigit (e.getD 1 NUL) = true) :
    strtoul ((e ++ Char.ofNat 10 :: t).drop 1)
      = ((strtoul (e.drop 1)).1, (strtoul (e.drop 1)).2 ++ Char.ofNat 10 :: t) := by
  rw [getD_one_eq_headD_drop] at hd
  obtain ⟨h1, h2⟩ := isdigit_head_strtoul_ok (e.drop 1) hd
  rw [drop_one_append_of_ne_nil e _ hne]
  exact strtoul_newline (e.drop 1) t h1 h2

theorem match_digit_time_newline (e t : List Char) (tm : struct_tm)
    (h1 : e.headD NUL = ':') (h2 : isdigit (e.getD 1 NUL) = true) :
    match_digit_time (e ++ Char.ofNat 10 :: t) tm
      = ((match_digit_time e tm).1, (match_digit_time e tm).2 ++ Char.ofNat 10 :: t) := by
  have hne := ne_nil_of_headD e ':' h1 (by decide)
  have e2 := strtoul_next_newline e t hne h2
  have e3 : ∀ r2 : List Char, r2.headD NUL = ':' ∧ isdigit (r2.getD 1 NUL) = true →
      strtoul ((r2 ++ Char.ofNat 10 :: t).drop 1)
        = ((strtoul (r2.drop 1)).1, (strtoul (r2.drop 1)).2 ++ Char.ofNat 10 :: t) :=
    fun r2 h => strtoul_next_newline r2 t (ne_nil_of_headD r2 ':' h.1 (by decide)) h.2
  unfold match_digit_time
  simp only [e2, lookahead_newline _ t ':' (by decide) (by decide)]
  generalize strtoul (e.drop 1) = r2 at e3 ⊢
  by_cases c1 : r2.1 < 60
  · rw [if_pos c1, if_pos c1]
    by_cases c2 : r2.2.headD NUL = ':' ∧ isdigit (r2.2.getD 1 NUL) = true
    · rw [if_pos c2, if_pos c2, e3 r2.2 c2]
      simp only
      generalize strtoul (r2.2.drop 1) = r3
      by_cases c3 : r3.1 < 61
      · rw [if_pos c3, if_pos c3]
      · rw [if_neg c3, if_neg c3]
    · rw [if_neg c2, if_neg c2]
  · rw [if_neg c1, if_neg c1]

theorem match_digit_delim_newline (c : Char) (num : Nat) (e t : List Char) (tm : struct_tm)
    (hc : e.headD NUL = c) (hc2 : c = '-' ∨ c = '/') :
    match_digit_delim c num (e ++ Char.ofNat 10 :: t) tm
      = ((match_digit_delim c num e tm).1,
          (match_digit_delim c num e tm).2 ++ Char.ofNat 10 :: t) := by
  have hcn : c ≠ NUL := by rcases hc2 with rfl | rfl <;> decide
  have hcl : c ≠ Char.ofNat 10 := by rcases hc2 with rfl | rfl <;> decide
  have hcs : isspace c = false := by rcases hc2 with rfl | rfl <;> decide
  have hne := ne_nil_of_headD e c hc hcn
  have e2 : isdigit (e.getD 1 NUL) = true →
      strtoul ((e ++ Char.ofNat 10 :: t).drop 1)
        = ((strtoul (e.drop 1)).1, (strtoul (e.drop 1)).2 ++ Char.ofNat 10 :: t) :=
    strtoul_next_newline e t hne
  have e3 : ∀ r2 : List Char, r2.headD NUL = c →
      strtoul (r2 ++ Char.ofNat 10 :: t)
        = ((strtoul r2).1, (strtoul r2).2 ++ Char.ofNat 10 :: t) :=
    fun r2 h => strtoul_newline r2 t (ne_nil_of_headD r2 c h hcn) (by rw [h]; exact hcs)
  unfold match_digit_delim
  simp only [isdigit_getD_one_newline e t hne, lookahead_newline _ t c hcn hcl]
  by_cases c1 : num ≠ 0 ∧ num < 32 ∧ isdigit (e.getD 1 NUL) = true
  · rw [if_pos c1, if_pos c1, e2 c1.2.2]
    simp only [lookahead_newline _ t c hcn hcl]
    generalize strtoul (e.drop 1) = r2
    by_cases c2 : r2.1 = 0 ∨ r2.1 > 31
    · rw [if_pos c2, if_pos c2]
    · rw [if_neg c2, if_neg c2]
      by_cases c3 : num > 12 ∧ r2.1 > 12
      · rw [if_pos c3, if_pos c3]
      · rw [if_neg c3, if_neg c3]
        by_cases c4 : r2.2.headD NUL = c ∧ isdigit (r2.2.getD 1 NUL) = true
        · rw [if_pos c4, if_pos c4, e3 r2.2 c4.1]
        · rw [if_neg c4, if_neg c4]
  · rw [if_neg c1, if_neg c1]

theorem length_sub_append (s e x : List Char) :
    (s ++ x).length - (e ++ x).length = s.length - e.length := by
  simp only [List.length_append]
  omega

theorem match_digit_newline (s t : List Char) (tm : struct_tm) (offset : Int)
    (h : isdigit (s.headD NUL) = true) :
    match_digit (s ++ Char.ofNat 10 :: t) tm offset = match_digit s tm offset := by
  obtain ⟨hne, hsp⟩ := isdigit_head_strtoul_ok s h
  have e1 := strtoul_newline s t hne hsp
  have hm : ∀ r2 : List Char, (r2 ++ Char.ofNat 10 :: t).headD NUL = '-' ↔ r2.headD NUL = '-' :=
    fun r2 => headD_newline_eq r2 t '-' (by decide) (by decide)
  have hs : ∀ r2 : List Char, (r2 ++ Char.ofNat 10 :: t).headD NUL = '/' ↔ r2.headD NUL = '/' :=
    fun r2 => headD_newline_eq r2 t '/' (by decide) (by decide)
  have hl : ∀ r2 : List Char, ((r2 ++ Char.ofNat 10 :: t).headD NUL = ':'
        ∧ isdigit ((r2 ++ Char.ofNat 10 :: t).getD 1 NUL) = true)
      ↔ (r2.headD NUL = ':' ∧ isdigit (r2.getD 1 NUL) = true) :=
    fun r2 => lookahead_newline r2 t ':' (by decide) (by decide)
  unfold match_digit
  simp only [e1, hm, hs, hl]
  generalize strtoul s = r
  by_cases c1 : r.1 < 24 ∧ r.2.headD NUL = ':' ∧ isdigit (r.2.getD 1 NUL) = true
  · rw [if_pos c1, if_pos c1, match_digit_time_newline r.2 t _ c1.2.1 c1.2.2]
    simp only [length_sub_append]
  · rw [if_neg c1, if_neg c1]
    by_cases c2 : r.2.headD NUL = '-' ∨ r.2.headD NUL = '/'
    · have hne2 : r.2 ≠ [] := by
        rcases c2 with c2 | c2
        · exact ne_nil_of_headD _ _ c2 (by decide)
        · exact ne_nil_of_headD _ _ c2 (by decide)
      rw [if_pos c2, if_pos c2, headD_append_of_ne_nil r.2 _ hne2,
        match_digit_delim_newline (r.2.headD NUL) r.1 r.2 t tm rfl c2]
      simp only [length_sub_append]
    · rw [if_neg c2, if_neg c2]
      simp only [length_sub_append]

theorem match_tz_newline (s t : List Char) (hs : s.headD NUL = '-' ∨ s.headD NUL = '+')
    (hd : isdigit (s.getD 1 NUL) = true) :
    match_tz (s ++ Char.ofNat 10 :: t) = match_tz s := by
  have hne : s ≠ [] := by
    rcases hs with hs | hs
    · exact ne_nil_of_headD _ _ hs (by decide)
    · exact ne_nil_of_headD _ _ hs (by decide)
  unfold match_tz
  simp only [strtoul_next_newline s t hne hd, headD_append_of_ne_nil s _ hne,
    length_sub_append]

theorem scan_step_newline (s t : List Char) (tm : struct_tm) (offset : Int) (hne : s ≠ []) :
    scan_step (s ++ Char.ofNat 10 :: t) tm offset = scan_step s tm offset := by
  unfold scan_step
  simp only [headD_append_of_ne_nil s _ hne, match_alpha_newline,
    isdigit_getD_one_newline s t hne]
  by_cases c1 : isalpha (s.headD NUL) = true
  · rw [if_pos c1, if_pos c1]
  · rw [if_neg c1, if_neg c1]
    by_cases c2 : isdigit (s.headD NUL) = true
    · rw [if_pos c2, if_pos c2, match_digit_newline s t tm offset c2]
    · rw [if_neg c2, if_neg c2]
      by_cases c3 : (s.headD NUL = '-' ∨ s.headD NUL = '+') ∧ isdigit (s.getD 1 NUL) = true
      · rw [if_pos c3, if_pos c3, match_tz_newline s t c3.1 c3.2]
      · rw [if_neg c3, if_neg c3]

theorem scan_from_newline (t : List Char) (n : Nat) : ∀ (s : List Char) (tm : struct_tm)
    (offset : Int), s.length ≤ n → Char.ofNat 10 ∉ s →
    scan_from (s ++ Char.ofNat 10 :: t) tm offset = scan_from s tm offset := by
  have hbase : ∀ (tm : struct_tm) (offset : Int),
      scan_from ([] ++ Char.ofNat 10 :: t) tm offset = scan_from [] tm offset := by
    intro tm offset
    rw [scan_from_stop ([] ++ Char.ofNat 10 :: t) tm offset (Or.inr (by simp)),
      scan_from_stop [] tm offset (Or.inl rfl)]
  induction n with
  | zero =>
    intro s tm offset hlen _
    have hnil : s = [] := List.length_eq_zero.mp (Nat.le_zero.mp hlen)
    subst hnil
    exact hbase tm offset
  | succ n ih =>
    intro s tm offset hlen hnl
    cases s with
    | nil => exact hbase tm offset
    | cons c cs =>
      by_cases h1 : c = NUL
      · rw [scan_from_stop ((c :: cs) ++ Char.ofNat 10 :: t) tm offset (Or.inl h1),
          scan_from_stop (c :: cs) tm offset (Or.inl h1)]
      · have h2 : c ≠ Char.ofNat 10 := fun e => hnl (by rw [← e]; exact List.mem_cons_self _ _)
        have hstep : scan_step (c :: (cs ++ Char.ofNat 10 :: t)) tm offset
            = scan_step (c :: cs) tm offset :=
          scan_step_newline (c :: cs) t tm offset (List.cons_ne_nil _ _)
        have hpos := scan_step_pos (c :: cs) tm offset
        have hle := (scan_step_le (c :: cs) tm offset h1).trans (strlen_le_length _)
        obtain ⟨r, hr⟩ : ∃ r, scan_step (c :: cs) tm offset = r := ⟨_, rfl⟩
        rw [hr] at hstep hpos hle
        have hdrop : (c :: (cs ++ Char.ofNat 10 :: t)).drop r.1
            = (c :: cs).drop r.1 ++ Char.ofNat 10 :: t :=
          List.drop_append_of_le_length hle
        have e1 : scan_from ((c :: cs) ++ Char.ofNat 10 :: t) tm offset
            = scan_from ((c :: cs).drop r.1 ++ Char.ofNat 10 :: t) r.2.1 r.2.2 :=
          scan_from_token c (cs ++ Char.ofNat 10 :: t) _ tm r.2.1 offset r.2.2 r.1 h1 h2
            hstep hdrop
        have e2 : scan_from (c :: cs) tm offset = scan_from ((c :: cs).drop r.1) r.2.1 r.2.2 :=
          scan_from_token c cs _ tm r.2.1 offset r.2.2 r.1 h1 h2 hr rfl
        rw [e1, e2]
        apply ih
        · rw [List.length_drop]
          simp only [List.length_cons] at hlen ⊢
          omega
        · intro hmem
          exact hnl (List.mem_of_mem_drop hmem)

/-- C17: the scan stops at the first newline and nothing after it is read:
for every text `s` without a newline and every text `t`, `parse_date` on `s`
followed by a newline and `t` gives exactly the result of `parse_date` on `s`,
for the record and the offset of the scan, the values and the text stored. -/
theorem parse_date_stops_at_newline (mktime : struct_tm → Int) (s t : List Char) (maxlen : Nat)
    (hs : Char.ofNat 10 ∉ s) :
    scan (s ++ Char.ofNat 10 :: t) = scan s
      ∧ parse_date_values mktime (s ++ Char.ofNat 10 :: t) = parse_date_values mktime s
      ∧ parse_date mktime (s ++ Char.ofNat 10 :: t) maxlen = parse_date mktime s maxlen := by
  have h : scan (s ++ Char.ofNat 10 :: t) = scan s :=
    scan_from_newline t s.length s fresh_tm (-1) (Nat.le_refl _) hs
  have hv : parse_date_values mktime (s ++ Char.ofNat 10 :: t) = parse_date_values mktime s := by
    unfold parse_date_values
    rw [h]
  refine ⟨h, hv, ?_⟩
  unfold parse_date
  rw [hv]

/-- Witness for C17: "Thu, 07 Jan 2021 10:30:00 +0100" followed by a newline
and "-0200 1999" gives the result of the first line alone. -/
theorem parse_date_stops_at_newline_witness :
    parse_date (fun _ => 0)
        ("Thu, 07 Jan 2021 10:30:00 +0100".toList ++ Char.ofNat 10 :: "-0200 1999".toList) 64
      = parse_date (fun _ => 0) "Thu, 07 Jan 2021 10:30:00 +0100".toList 64 :=
  (parse_date_stops_at_newline (fun _ => 0) "Thu, 07 Jan 2021 10:30:00 +0100".toList
    "-0200 1999".toList 64 (by decide)).2.2

/-! ## The format of the result read back -/

end DateC
